import Mathlib

/-!
# Verification of the `conferatur.csv` streaming CSV reader

This file gives a shallow embedding, in Lean 4, of the character-level CSV
parser implemented in `src/conferatur/csv.py`, and settles a list of claims
about it.  The embedding follows the source code closely:

* `Dialect` mirrors the Python `Dialect` class hierarchy as a plain record
  (strings are modelled as `List Char`, optional attributes as `Option`).
* `Mode` mirrors the integer constants `MODE_FIRST`, `MODE_OUTSIDE`,
  `MODE_INSIDE`, `MODE_INSIDE_QUOTED`, `MODE_INSIDE_QUOTED_QUOTE`,
  `MODE_COMMENT`.
* `St` is the mutable scratch state of `Reader.__iter__` (current mode, field
  buffer, row buffer, `cur_line`, `cur_char`, `idx`, `last_quote_*`).
* `step` is the body of the `for char in readchar` loop, `finish` the code
  after the loop, and `runAux`/`parse` tie them together.  The generator's
  lazily yielded rows are modelled as the list of rows produced before the
  parse either ends or raises, paired with the optional error.
-/

namespace Conferatur

/-- A dialect, translated from the `Dialect` class and its subclasses in
`csv.py`.  Python strings become `List Char`; class attributes that may be
`None` become `Option`.  (`DefaultDialect.ignoreemptylines` is never read by
the `Reader`, so it is not modelled.) -/
structure Dialect where
  delimiter : List Char
  quotechar : Option Char
  commentchar : Option (List Char)
  trimleft : Option (List Char)
  trimright : Option (List Char)
deriving DecidableEq, Repr

/-- `DefaultDialect`: `delimiter=','`, `quotechar='"'`, `commentchar='#'`,
`trimleft = trimright = ' \t\n\r'`. -/
def defaultDialect : Dialect :=
  { delimiter := [',']
    quotechar := some '"'
    commentchar := some ['#']
    trimleft := some [' ', '\t', '\n', '\r']
    trimright := some [' ', '\t', '\n', '\r'] }

/-- `WhitespaceDialect`: inherits everything from `DefaultDialect` except
`delimiter = ' \t'`. -/
def whitespaceDialect : Dialect :=
  { defaultDialect with delimiter := [' ', '\t'] }

/-- The machine modes `MODE_FIRST` (0) … `MODE_COMMENT` (5) from `csv.py`. -/
inductive Mode where
  | first
  | outside
  | inside
  | insideQuoted
  | insideQuotedQuote
  | comment
deriving DecidableEq, Repr

/-- A yielded `Line` (a `list` subclass in the source): the ordered fields
plus the dynamically attached `lineno` attribute set in `yield_line`. -/
structure Row where
  fields : List (List Char)
  lineno : Nat
deriving DecidableEq, Repr

/-- The parse errors raised by `Reader.__iter__`.  `CSVParserError.__init__`
stores `(message, line, char, index)`.  For `UnclosedQuoteError` the three
positions are the `last_quote_*` variables, which are `None` until a quote has
been opened, hence `Option Nat`. -/
inductive CSVError where
  | unclosedQuote (message : String) (line char index : Option Nat)
  | unallowedQuote (message : String) (line char index : Nat)
deriving DecidableEq, Repr

/-- `char in '\n\r'` (the `newlinechars` of `Reader.__iter__`). -/
def isNewlineChar (c : Char) : Bool :=
  decide (c = '\n' ∨ c = '\r')

/-- `Reader._is_ignore_left`: `False` when `trimleft is None`, otherwise
`char in trimleft`. -/
def isIgnoreLeft (d : Dialect) (c : Char) : Bool :=
  match d.trimleft with
  | none => false
  | some tl => decide (c ∈ tl)

/-- `Reader._is_comment`: `False` when `commentchar is None`, otherwise
`char in commentchar` (Python string membership). -/
def isComment (d : Dialect) (c : Char) : Bool :=
  match d.commentchar with
  | none => false
  | some cc => decide (c ∈ cc)

/-- `Reader._is_quote`: `False` when `quotechar is None`, otherwise
`char == quotechar`. -/
def isQuote (d : Dialect) (c : Char) : Bool :=
  match d.quotechar with
  | none => false
  | some q => decide (c = q)

/-- `Reader._is_delimiter`: `char in delimiter`. -/
def isDelimiter (d : Dialect) (c : Char) : Bool :=
  decide (c ∈ d.delimiter)

/-- `str.rstrip(chars)` on a `List Char`; `none` means no trimming
(`Reader._trimright` returns the data unchanged when `trimright is None`). -/
def rstripChars (chars : Option (List Char)) (data : List Char) : List Char :=
  match chars with
  | none => data
  | some cs => (data.reverse.dropWhile (fun c => decide (c ∈ cs))).reverse

/-- `delimiter_is_whitespace = self._dialect.delimiter in self._dialect.trimright`
from `Reader.__iter__` (line 158).  Python `in` between two strings is the
*contiguous substring* test, modelled by `List.IsInfix`.  (When `trimright`
is `None` the source raises a `TypeError`; that case is unreachable for the
dialects considered here and is modelled as `false`.) -/
def delimiterIsWhitespace (d : Dialect) : Bool :=
  match d.trimright with
  | none => false
  | some tr => decide (d.delimiter <:+: tr)

/-- The scratch state owned by `Reader.__iter__`: current mode, the field
buffer `field`, the row buffer `line`, and the position counters
`cur_line`, `cur_char`, `idx`, `last_quote_line/char/idx`. -/
structure St where
  mode : Mode
  field : List Char
  line : List (List Char)
  curLine : Nat
  curChar : Nat
  idx : Nat
  lastQuoteLine : Option Nat
  lastQuoteChar : Option Nat
  lastQuoteIdx : Option Nat
deriving DecidableEq, Repr

/-- The initial state of `Reader.__iter__`: `cur_line = 1`, `cur_char = 0`,
`idx = 0`, mode `MODE_FIRST`, empty buffers, no quote seen. -/
def initSt : St :=
  { mode := Mode.first
    field := []
    line := []
    curLine := 1
    curChar := 0
    idx := 0
    lastQuoteLine := none
    lastQuoteChar := none
    lastQuoteIdx := none }

/-- `next_field`: join the field buffer, right-trim it unless the field is
being closed out of `MODE_INSIDE_QUOTED_QUOTE`, append it to the current row,
clear the buffer, and go to `MODE_OUTSIDE`. -/
def nextField (d : Dialect) (st : St) : St :=
  let f := if st.mode = Mode.insideQuotedQuote then st.field
           else rstripChars d.trimright st.field
  { st with line := st.line ++ [f], field := [], mode := Mode.outside }

/-- `yield_line`: unless the state is `MODE_OUTSIDE` with
`delimiter_is_whitespace`, close the pending field; stamp the row with the
current `cur_line`; reset the buffers and return to `MODE_FIRST`. -/
def yieldLine (d : Dialect) (st : St) : Row × St :=
  let st' := if st.mode = Mode.outside ∧ delimiterIsWhitespace d then st
             else nextField d st
  ({ fields := st'.line, lineno := st'.curLine },
   { st' with field := [], line := [], mode := Mode.first })

/-- The outcome of one iteration of the `for char in readchar` loop: either
the state is updated, or a row is yielded (and the state updated), or an
error is raised. -/
inductive StepOut where
  | ok (st : St)
  | yieldRow (r : Row) (st : St)
  | err (e : CSVError)
deriving DecidableEq, Repr

/-- The counter updates at the top of the loop body: `cur_char += 1`,
`idx += 1`, and on a newline `cur_line += 1; cur_char = 0`. -/
def bump (st0 : St) (isNl : Bool) : St :=
  if isNl then
    { st0 with idx := st0.idx + 1, curChar := 0, curLine := st0.curLine + 1 }
  else
    { st0 with idx := st0.idx + 1, curChar := st0.curChar + 1 }

/-- One iteration of the scanning loop of `Reader.__iter__` for the consumed
character `c`: increment `cur_char` and `idx`; on a newline bump `cur_line`
and reset `cur_char`; then dispatch on the current mode exactly as the
source does (same branch order). -/
def step (d : Dialect) (st0 : St) (c : Char) : StepOut :=
  let isNl := isNewlineChar c
  let st := bump st0 isNl
  match st.mode with
  | Mode.comment =>
      if isNl then StepOut.ok { st with mode := Mode.first } else StepOut.ok st
  | Mode.first =>
      if isNl then StepOut.ok st
      else if isIgnoreLeft d c then StepOut.ok st
      else if isComment d c then StepOut.ok { st with mode := Mode.comment }
      else if isQuote d c then
        StepOut.ok { st with mode := Mode.insideQuoted,
                             lastQuoteLine := some st.curLine,
                             lastQuoteChar := some st.curChar,
                             lastQuoteIdx := some st.idx }
      else if isDelimiter d c then StepOut.ok (nextField d st)
      else StepOut.ok { st with mode := Mode.inside, field := st.field ++ [c] }
  | Mode.outside =>
      if isNl then
        let p := yieldLine d st
        StepOut.yieldRow p.1 p.2
      else if isIgnoreLeft d c then StepOut.ok st
      else if isQuote d c then
        StepOut.ok { st with mode := Mode.insideQuoted,
                             lastQuoteLine := some st.curLine,
                             lastQuoteChar := some st.curChar,
                             lastQuoteIdx := some st.idx }
      else if isDelimiter d c then StepOut.ok (nextField d st)
      else StepOut.ok { st with mode := Mode.inside, field := st.field ++ [c] }
  | Mode.inside =>
      if isQuote d c then
        StepOut.err (CSVError.unallowedQuote "Quote not allowed here"
          st.curLine st.curChar st.idx)
      else if isNl then
        let p := yieldLine d st
        StepOut.yieldRow p.1 p.2
      else if isDelimiter d c then StepOut.ok (nextField d st)
      else StepOut.ok { st with field := st.field ++ [c] }
  | Mode.insideQuotedQuote =>
      if isQuote d c then
        StepOut.ok { st with field := st.field ++ [c], mode := Mode.insideQuoted }
      else if isDelimiter d c then StepOut.ok (nextField d st)
      else if isNl then
        let p := yieldLine d st
        StepOut.yieldRow p.1 p.2
      else
        StepOut.err (CSVError.unallowedQuote "Single quote inside quoted field"
          st.curLine st.curChar st.idx)
  | Mode.insideQuoted =>
      if isQuote d c then StepOut.ok { st with mode := Mode.insideQuotedQuote }
      else StepOut.ok { st with field := st.field ++ [c] }

/-- The code after the scanning loop: raise `UnclosedQuoteError` when the
stream ends in `MODE_INSIDE_QUOTED`; flush one final row when it ends in
`MODE_INSIDE_QUOTED_QUOTE`, `MODE_OUTSIDE` or `MODE_INSIDE`. -/
def finish (d : Dialect) (st : St) : List Row × Option CSVError :=
  if st.mode = Mode.insideQuoted then
    ([], some (CSVError.unclosedQuote "Unexpected end"
      st.lastQuoteLine st.lastQuoteChar st.lastQuoteIdx))
  else if st.mode = Mode.insideQuotedQuote ∨ st.mode = Mode.outside ∨
          st.mode = Mode.inside then
    ([(yieldLine d st).1], none)
  else ([], none)

/-- Run the whole generator body of `Reader.__iter__` from state `st` on the
remaining characters: the rows yielded (in order) together with the error
that terminated the parse, if any. -/
def runAux (d : Dialect) (st : St) : List Char → List Row × Option CSVError
  | [] => finish d st
  | c :: cs =>
    match step d st c with
    | StepOut.ok st' => runAux d st' cs
    | StepOut.yieldRow r st' =>
        let p := runAux d st' cs
        (r :: p.1, p.2)
    | StepOut.err e => ([], some e)

/-- Parse a whole character stream: the rows yielded by iterating a `Reader`,
and the error (if any) that ended the iteration. -/
def parse (d : Dialect) (input : List Char) : List Row × Option CSVError :=
  runAux d initSt input

/-- The scanning loop alone, without the end-of-stream code: rows yielded so
far, and either the state at end of stream or the error raised mid-loop. -/
def loopScan (d : Dialect) (st : St) : List Char → List Row × (St ⊕ CSVError)
  | [] => ([], Sum.inl st)
  | c :: cs =>
    match step d st c with
    | StepOut.ok st' => loopScan d st' cs
    | StepOut.yieldRow r st' =>
        let p := loopScan d st' cs
        (r :: p.1, p.2)
    | StepOut.err e => ([], Sum.inr e)

/-! ## Basic lemmas about the machine -/

@[simp] theorem bump_mode (st : St) (b : Bool) : (bump st b).mode = st.mode := by
  unfold bump; split <;> rfl

@[simp] theorem bump_field (st : St) (b : Bool) : (bump st b).field = st.field := by
  unfold bump; split <;> rfl

@[simp] theorem bump_line (st : St) (b : Bool) : (bump st b).line = st.line := by
  unfold bump; split <;> rfl

@[simp] theorem bump_idx (st : St) (b : Bool) : (bump st b).idx = st.idx + 1 := by
  unfold bump; split <;> rfl

@[simp] theorem bump_lastQuoteLine (st : St) (b : Bool) :
    (bump st b).lastQuoteLine = st.lastQuoteLine := by
  unfold bump; split <;> rfl

@[simp] theorem bump_lastQuoteChar (st : St) (b : Bool) :
    (bump st b).lastQuoteChar = st.lastQuoteChar := by
  unfold bump; split <;> rfl

@[simp] theorem bump_lastQuoteIdx (st : St) (b : Bool) :
    (bump st b).lastQuoteIdx = st.lastQuoteIdx := by
  unfold bump; split <;> rfl

/-- What comes after the loop: feed the loop's terminal result into the
end-of-stream code, or propagate the mid-loop error. -/
def afterLoop (d : Dialect) : St ⊕ CSVError → List Row × Option CSVError
  | Sum.inl st => finish d st
  | Sum.inr e => ([], some e)

/-- `runAux` decomposes as the loop (`loopScan`) followed by the
end-of-stream code (`afterLoop`). -/
theorem runAux_eq_loopScan (d : Dialect) (st : St) (cs : List Char) :
    runAux d st cs =
      ((loopScan d st cs).1 ++ (afterLoop d (loopScan d st cs).2).1,
       (afterLoop d (loopScan d st cs).2).2) := by
  induction cs generalizing st with
  | nil => simp [runAux, loopScan, afterLoop]
  | cons c cs ih =>
    simp only [runAux, loopScan]
    cases step d st c with
    | ok st' => exact ih st'
    | yieldRow r st' => simp [ih st']
    | err e => simp [afterLoop]

/-- `loopScan` over a concatenation: run the first part; if it survives,
continue with the second from the reached state. -/
theorem loopScan_append (d : Dialect) (st : St) (xs ys : List Char) :
    loopScan d st (xs ++ ys) =
      (match loopScan d st xs with
       | (rs, Sum.inl st') =>
           ((rs ++ (loopScan d st' ys).1 : List Row), (loopScan d st' ys).2)
       | (rs, Sum.inr e) => (rs, Sum.inr e)) := by
  induction xs generalizing st with
  | nil => simp [loopScan]
  | cons c xs ih =>
    simp only [List.cons_append, loopScan]
    cases step d st c with
    | ok st' => exact ih st'
    | yieldRow r st' =>
        cases h : loopScan d st' xs with
        | mk rs o => cases o <;> simp [ih st', h]
    | err e => simp

/-! ## C1: line numbers attached to rows -/

/-- C1: the claim says that for input `"a,b\nc,d\n"` the reader yields two
rows with line numbers 1 and 2.  The code instead stamps them 2 and 3:
`cur_line` is incremented by the terminating newline *before* `yield_line`
reads it.  This theorem evaluates the embedded reader at the claim's own
input and exhibits the line numbers the code actually attaches. -/
theorem c1_line_numbers :
    parse defaultDialect "a,b\nc,d\n".toList =
      ([{ fields := [['a'], ['b']], lineno := 2 },
        { fields := [['c'], ['d']], lineno := 3 }], none) := by
  decide

/-- C1 (supporting fact): the same row content without a trailing newline is
stamped with its true starting line, so the stamp is inconsistent between
newline-terminated and end-of-stream-terminated rows — evidence that the
claimed behaviour is the intent and the increment-before-stamp a slip. -/
theorem c1_eof_row_lineno :
    parse defaultDialect "a,b".toList =
      ([{ fields := [['a'], ['b']], lineno := 1 }], none) := by
  decide

/-! ## C3: the trailing-field-drop condition -/

/-- A dialect whose delimiter characters `{'\t', ' '}` form a *subset* of its
right-trim characters `{' ', '\t', '\n', '\r'}`, but whose delimiter string
`"\t "` is *not* a contiguous substring of the right-trim string `" \t\n\r"`,
so Python's `delimiter in trimright` is `False` for it. -/
def tabSpaceDialect : Dialect :=
  { delimiter := ['\t', ' ']
    quotechar := some '"'
    commentchar := some ['#']
    trimleft := some []
    trimright := some [' ', '\t', '\n', '\r'] }

/-- C3 (counterexample): for `tabSpaceDialect` the set of delimiter
characters is a subset of the set of right-trim characters, yet a row flushed
in `OUTSIDE_FIELD` does **not** drop the pending trailing field: input
`"a\t\n"` yields the row `["a", ""]` with a trailing empty field.  The
condition the code computes is Python's substring test
`delimiter in trimright`, not the set inclusion the claim states. -/
theorem c3_counterexample :
    (∀ c ∈ tabSpaceDialect.delimiter, c ∈ [' ', '\t', '\n', '\r']) ∧
    tabSpaceDialect.trimright = some [' ', '\t', '\n', '\r'] ∧
    delimiterIsWhitespace tabSpaceDialect = false ∧
    parse tabSpaceDialect "a\t\n".toList =
      ([{ fields := [['a'], []], lineno := 2 }], none) := by
  refine ⟨by decide, rfl, by decide, by decide⟩

/-- C3 (amended): the trailing-field-drop rule applies exactly when the
dialect's delimiter *string* occurs as a contiguous substring of its
right-trim *string* (Python's `in` on strings), a condition computed once per
parse from the two strings.  For every dialect satisfying it, a row flushed
while the machine is in `OUTSIDE_FIELD` drops the pending trailing field
instead of closing it (and otherwise the pending field is closed and
appended); whitespace-dialect input `"a   b\n"` yields exactly one row with
fields `["a","b"]` and no trailing empty field. -/
theorem c3_trailing_drop :
    (∀ (d : Dialect) (st : St), st.mode = Mode.outside →
      (delimiterIsWhitespace d = true → (yieldLine d st).1.fields = st.line) ∧
      (delimiterIsWhitespace d = false →
        (yieldLine d st).1.fields = st.line ++ [rstripChars d.trimright st.field])) ∧
    (∀ (d : Dialect) (tr : List Char), d.trimright = some tr →
      (delimiterIsWhitespace d = true ↔ d.delimiter <:+: tr)) ∧
    delimiterIsWhitespace whitespaceDialect = true ∧
    parse whitespaceDialect "a   b\n".toList =
      ([{ fields := [['a'], ['b']], lineno := 2 }], none) := by
  refine ⟨?_, ?_, by decide, by decide⟩
  · intro d st hmode
    constructor
    · intro hws
      simp [yieldLine, hmode, hws]
    · intro hws
      simp [yieldLine, hmode, hws, nextField]
  · intro d tr htr
    simp [delimiterIsWhitespace, htr]

/-- C3 (witness): the amended theorem applied at a concrete `OUTSIDE_FIELD`
state of the whitespace dialect and at the concrete example input. -/
theorem c3_trailing_drop_witness :
    (yieldLine whitespaceDialect
      { mode := Mode.outside, field := [], line := [['a'], ['b']],
        curLine := 2, curChar := 0, idx := 6,
        lastQuoteLine := none, lastQuoteChar := none,
        lastQuoteIdx := none }).1.fields = [['a'], ['b']] ∧
    parse whitespaceDialect "a   b\n".toList =
      ([{ fields := [['a'], ['b']], lineno := 2 }], none) :=
  ⟨(c3_trailing_drop.1 whitespaceDialect
      { mode := Mode.outside, field := [], line := [['a'], ['b']],
        curLine := 2, curChar := 0, idx := 6,
        lastQuoteLine := none, lastQuoteChar := none,
        lastQuoteIdx := none } rfl).1 (by decide),
   c3_trailing_drop.2.2.2⟩

/-! ## C7: the `reader` construction contract -/

/-- The possible Python values passed as the `dialect` argument of
`reader(file, dialect=None)`, as far as the code distinguishes them:
`None`; a `str`; a class object that is a subclass of `Dialect` (carrying its
configuration); a class object that is not a `Dialect` subclass; and any
value that is not a class at all (for instance an *instance* of a dialect, or
an `int`).  The last case matters because `issubclass(x, Dialect)` raises
`TypeError` when `x` is not a class. -/
inductive DialectArg where
  | pyNone
  | pyStr (s : String)
  | dialectSubclass (d : Dialect)
  | nonDialectClass
  | nonClassValue
deriving DecidableEq, Repr

/-- The observable outcome of calling `reader(file, dialect)`:
a constructed `Reader` over dialect `d`, or one of the exceptions
(`UnknownDialectError`, `InvalidDialectError`, or Python's built-in
`TypeError` out of `issubclass`). -/
inductive ReaderOutcome where
  | ok (d : Dialect)
  | unknownDialectError
  | invalidDialectError
  | typeError
deriving DecidableEq, Repr

/-- The module-level `known_dialects` table. -/
def knownDialects : List (String × Dialect) :=
  [("default", defaultDialect), ("whitespace", whitespaceDialect)]

/-- The dialect dispatch of `reader` plus the `issubclass` check in
`Reader.__init__`: `None` becomes `DefaultDialect`; a `str` is looked up in
`known_dialects` (raising `UnknownDialectError` if absent); then
`issubclass(dialect, Dialect)` either passes (a `Dialect` subclass), fails
(`InvalidDialectError` for a non-`Dialect` class), or itself raises
`TypeError` (for a non-class value). -/
def resolveDialect : DialectArg → ReaderOutcome
  | DialectArg.pyNone => ReaderOutcome.ok defaultDialect
  | DialectArg.pyStr s =>
      match List.lookup s knownDialects with
      | some d => ReaderOutcome.ok d
      | none => ReaderOutcome.unknownDialectError
  | DialectArg.dialectSubclass d => ReaderOutcome.ok d
  | DialectArg.nonDialectClass => ReaderOutcome.invalidDialectError
  | DialectArg.nonClassValue => ReaderOutcome.typeError

/-- `reader(file, dialect)`: the construction outcome, together with the
stream, none of which has been consumed (construction never reads it). -/
def reader (file : List Char) (arg : DialectArg) : ReaderOutcome × List Char :=
  (resolveDialect arg, file)

/-- C7 (counterexample): the claim says any non-`Dialect` value raises
`InvalidDialectError`.  But for a value that is not a class at all — e.g.
an `int`, or a dialect *instance* — the check `issubclass(dialect, Dialect)`
in `Reader.__init__` raises `TypeError` instead. -/
theorem c7_counterexample :
    resolveDialect DialectArg.nonClassValue = ReaderOutcome.typeError ∧
    ReaderOutcome.typeError ≠ ReaderOutcome.invalidDialectError := by
  decide

/-- C7 (amended): `reader(stream, dialect)` with dialect omitted/`None` uses
the default dialect; a known string identifier resolves through
`known_dialects`; an unknown string raises `UnknownDialectError`; a class not
subclassing `Dialect` raises `InvalidDialectError`; a value that is not a
class (including a `Dialect` *instance*) makes the `issubclass` check raise
`TypeError`; a `Dialect` subclass constructs a `Reader`.  Each outcome is
determined at construction and no character of the stream is consumed. -/
theorem c7_construction :
    ∀ stream : List Char,
      (reader stream DialectArg.pyNone).1 = ReaderOutcome.ok defaultDialect ∧
      (reader stream (DialectArg.pyStr "default")).1 =
        ReaderOutcome.ok defaultDialect ∧
      (reader stream (DialectArg.pyStr "whitespace")).1 =
        ReaderOutcome.ok whitespaceDialect ∧
      (∀ s : String, s ≠ "default" → s ≠ "whitespace" →
        (reader stream (DialectArg.pyStr s)).1 =
          ReaderOutcome.unknownDialectError) ∧
      (∀ d : Dialect, (reader stream (DialectArg.dialectSubclass d)).1 =
        ReaderOutcome.ok d) ∧
      (reader stream DialectArg.nonDialectClass).1 =
        ReaderOutcome.invalidDialectError ∧
      (reader stream DialectArg.nonClassValue).1 = ReaderOutcome.typeError ∧
      (∀ arg : DialectArg, (reader stream arg).2 = stream) := by
  intro stream
  refine ⟨rfl, rfl, rfl, ?_, fun d => rfl, rfl, rfl, fun arg => rfl⟩
  intro s h1 h2
  simp only [reader, resolveDialect, knownDialects, List.lookup]
  rw [beq_eq_false_iff_ne.mpr h1, beq_eq_false_iff_ne.mpr h2]

/-- C7 (witness): the amended construction contract applied at a concrete
stream and a concrete unknown dialect name. -/
theorem c7_construction_witness :
    (reader "a,b".toList (DialectArg.pyStr "csv")).1 =
      ReaderOutcome.unknownDialectError ∧
    (reader "a,b".toList DialectArg.pyNone).1 =
      ReaderOutcome.ok defaultDialect ∧
    (reader "a,b".toList (DialectArg.pyStr "csv")).2 = "a,b".toList :=
  ⟨(c7_construction "a,b".toList).2.2.2.1 "csv" (by decide) (by decide),
   (c7_construction "a,b".toList).1,
   (c7_construction "a,b".toList).2.2.2.2.2.2.2 (DialectArg.pyStr "csv")⟩

/-! ## C6: end-of-stream policy -/

/-- C6: if the scanning loop reaches end of stream in
`INSIDE_QUOTED_FIELD_SAW_QUOTE`, `OUTSIDE_FIELD` or `INSIDE_FIELD`, exactly
one final row is flushed after the rows already yielded; if it halts in
`START_OF_LINE` or `COMMENT`, nothing further is emitted.  Concretely, the
empty input yields zero rows and no error, and `"a,b"` (no final newline)
still yields the final row `["a","b"]`. -/
theorem c6_eof_flush :
    (∀ (d : Dialect) (input : List Char) (rows : List Row) (st : St),
      loopScan d initSt input = (rows, Sum.inl st) →
      ((st.mode = Mode.insideQuotedQuote ∨ st.mode = Mode.outside ∨
          st.mode = Mode.inside) →
        parse d input = (rows ++ [(yieldLine d st).1], none)) ∧
      ((st.mode = Mode.first ∨ st.mode = Mode.comment) →
        parse d input = (rows, none))) ∧
    parse defaultDialect [] = ([], none) ∧
    parse defaultDialect "a,b".toList =
      ([{ fields := [['a'], ['b']], lineno := 1 }], none) := by
  refine ⟨?_, by decide, by decide⟩
  intro d input rows st h
  have hb := runAux_eq_loopScan d initSt input
  rw [h] at hb
  constructor
  · intro hmode
    rcases hmode with hm | hm | hm <;>
      simp [parse, hb, afterLoop, finish, hm]
  · intro hmode
    rcases hmode with hm | hm <;>
      simp [parse, hb, afterLoop, finish, hm]

/-- C6 (witness): the end-of-stream flush applied at the concrete loop state
reached on input `"a,b"`, which halts in `INSIDE_FIELD`. -/
theorem c6_eof_flush_witness :
    parse defaultDialect "a,b".toList =
      ([] ++ [(yieldLine defaultDialect
        { mode := Mode.inside, field := ['b'], line := [['a']],
          curLine := 1, curChar := 3, idx := 3,
          lastQuoteLine := none, lastQuoteChar := none,
          lastQuoteIdx := none }).1], none) ∧
    (loopScan defaultDialect initSt "a,b".toList).2 = Sum.inl
      { mode := Mode.inside, field := ['b'], line := [['a']],
        curLine := 1, curChar := 3, idx := 3,
        lastQuoteLine := none, lastQuoteChar := none,
        lastQuoteIdx := none } := by
  have h := (c6_eof_flush.1 defaultDialect "a,b".toList []
    { mode := Mode.inside, field := ['b'], line := [['a']],
      curLine := 1, curChar := 3, idx := 3,
      lastQuoteLine := none, lastQuoteChar := none,
      lastQuoteIdx := none } (by decide)).1 (Or.inr (Or.inr rfl))
  exact ⟨by rw [h], by decide⟩

/-! ## C10: every yielded row has at least one field -/

/-- The one machine invariant needed for C10: in `MODE_OUTSIDE` the current
row buffer is never empty (the mode is only entered through `next_field`,
which has just appended a field). -/
def OutsideNonempty (st : St) : Prop :=
  st.mode = Mode.outside → st.line ≠ []

theorem outsideNonempty_bump {st : St} {b : Bool} (h : OutsideNonempty st) :
    OutsideNonempty (bump st b) := by
  intro hm
  rw [bump_line]
  exact h (by rwa [bump_mode] at hm)

/-- A flushed row always contains at least one field, provided the row
buffer is non-empty whenever the machine is in `MODE_OUTSIDE`. -/
theorem yieldLine_fields_ne_nil (d : Dialect) (st : St)
    (h : OutsideNonempty st) : (yieldLine d st).1.fields ≠ [] := by
  unfold yieldLine
  split
  · next hcond => simpa using h hcond.1
  · simp [nextField]

/-- `yield_line` always resets the mode to `MODE_FIRST`. -/
theorem yieldLine_reset_mode (d : Dialect) (st : St) :
    ((yieldLine d st).2).mode = Mode.first := rfl

/-- A successful `step` preserves the `MODE_OUTSIDE` row-buffer invariant. -/
theorem step_ok_outsideNonempty {d : Dialect} {st st' : St} {c : Char}
    (h : step d st c = StepOut.ok st') (hst : OutsideNonempty st) :
    OutsideNonempty st' := by
  have hb : OutsideNonempty (bump st (isNewlineChar c)) := outsideNonempty_bump hst
  unfold step at h
  cases hm : (bump st (isNewlineChar c)).mode <;> simp only [hm] at h <;>
    repeat' split at h
  all_goals simp_all only [StepOut.ok.injEq, reduceCtorEq]
  all_goals (subst h; intro hmode)
  all_goals simp_all [OutsideNonempty, nextField]

/-- A yielded row equals the row flushed by `yield_line` from the bumped
state, and the continuation state is `yield_line`'s reset state. -/
theorem step_yield_eq {d : Dialect} {st st' : St} {c : Char} {r : Row}
    (h : step d st c = StepOut.yieldRow r st') :
    r = (yieldLine d (bump st (isNewlineChar c))).1 ∧
    st' = (yieldLine d (bump st (isNewlineChar c))).2 := by
  unfold step at h
  cases hm : (bump st (isNewlineChar c)).mode <;> simp only [hm] at h <;>
    repeat' split at h
  all_goals simp only [StepOut.yieldRow.injEq, reduceCtorEq] at h
  all_goals first
    | exact h.elim
    | exact ⟨h.1.symm, h.2.symm⟩

/-- All rows produced by the rest of the run have at least one field, given
the `MODE_OUTSIDE` invariant at the current state. -/
theorem runAux_fields_ne_nil (d : Dialect) :
    ∀ (cs : List Char) (st : St), OutsideNonempty st →
      ∀ r ∈ (runAux d st cs).1, r.fields ≠ [] := by
  intro cs
  induction cs with
  | nil =>
    intro st hst r hr
    simp only [runAux] at hr
    unfold finish at hr
    split at hr
    · simp at hr
    · split at hr
      · simp only [List.mem_singleton] at hr
        subst hr
        exact yieldLine_fields_ne_nil d st hst
      · simp at hr
  | cons c cs ih =>
    intro st hst r hr
    simp only [runAux] at hr
    cases hstep : step d st c with
    | ok st' =>
        rw [hstep] at hr
        exact ih st' (step_ok_outsideNonempty hstep hst) r hr
    | yieldRow r0 st' =>
        rw [hstep] at hr
        simp only [List.mem_cons] at hr
        rcases hr with hr | hr
        · subst hr
          obtain ⟨h1, _⟩ := step_yield_eq hstep
          rw [h1]
          exact yieldLine_fields_ne_nil d _ (outsideNonempty_bump hst)
        · obtain ⟨_, h2⟩ := step_yield_eq hstep
          refine ih st' ?_ r hr
          intro hmode
          rw [h2, yieldLine_reset_mode] at hmode
          exact absurd hmode (by simp)
    | err e =>
        rw [hstep] at hr
        simp at hr

/-- C10: for every input and every dialect, each row the reader yields
contains at least one field; and a blank line, seen in the start-of-line
state, yields no row at all (input `"\n\n"` yields zero rows). -/
theorem c10_rows_nonempty :
    (∀ (d : Dialect) (input : List Char) (r : Row),
      r ∈ (parse d input).1 → r.fields ≠ []) ∧
    parse defaultDialect "\n\n".toList = ([], none) := by
  refine ⟨?_, by decide⟩
  intro d input r hr
  refine runAux_fields_ne_nil d input initSt ?_ r hr
  intro hmode
  exact absurd hmode (by simp [initSt])

/-- C10 (witness): the invariant applied to a concrete row of a concrete
parse. -/
theorem c10_rows_nonempty_witness :
    ({ fields := [['a'], ['b']], lineno := 2 } : Row).fields ≠ [] :=
  c10_rows_nonempty.1 defaultDialect "a,b\n".toList
    { fields := [['a'], ['b']], lineno := 2 } (by decide)

/-! ## C8: quoted-field round trip -/

/-- The body of a quoted-field encoding: every occurrence of the quote
character is doubled, all other characters are kept. -/
def quoteBody (q : Char) : List Char → List Char
  | [] => []
  | c :: cs => (if c = q then [c, c] else [c]) ++ quoteBody q cs

/-- Encode a string as a quoted field: double the embedded quotes and wrap
the result in the quote character. -/
def encodeQuoted (q : Char) (s : List Char) : List Char :=
  q :: (quoteBody q s ++ [q])

theorem yieldLine_fields_iqq (d : Dialect) (st : St)
    (h : st.mode = Mode.insideQuotedQuote) :
    (yieldLine d st).1.fields = st.line ++ [st.field] := by
  unfold yieldLine
  simp [h, nextField]

/-- Consuming the doubled-quote body from `MODE_INSIDE_QUOTED` appends
exactly the original characters to the field buffer, yields nothing, raises
nothing, and stays in `MODE_INSIDE_QUOTED`. -/
theorem runAux_quoteBody (d : Dialect) (q : Char) (hq : d.quotechar = some q) :
    ∀ (s : List Char) (st : St) (rest : List Char),
      st.mode = Mode.insideQuoted →
      ∃ st' : St, runAux d st (quoteBody q s ++ rest) = runAux d st' rest ∧
        st'.mode = Mode.insideQuoted ∧ st'.field = st.field ++ s ∧
        st'.line = st.line := by
  intro s
  induction s with
  | nil =>
    intro st rest hmode
    exact ⟨st, by simp [quoteBody], hmode, by simp, rfl⟩
  | cons c s ih =>
    intro st rest hmode
    by_cases hc : c = q
    · subst hc
      have hstep1 : step d st c =
          StepOut.ok { bump st (isNewlineChar c) with
                       mode := Mode.insideQuotedQuote } := by
        unfold step
        simp [bump_mode, hmode, isQuote, hq]
      have hstep2 : step d { bump st (isNewlineChar c) with
                             mode := Mode.insideQuotedQuote } c =
          StepOut.ok { bump { bump st (isNewlineChar c) with
                              mode := Mode.insideQuotedQuote }
                            (isNewlineChar c) with
                       field := st.field ++ [c], mode := Mode.insideQuoted } := by
        unfold step
        simp [bump_mode, isQuote, hq]
      obtain ⟨st', h1, h2, h3, h4⟩ := ih
        { bump { bump st (isNewlineChar c) with
                 mode := Mode.insideQuotedQuote } (isNewlineChar c) with
          field := st.field ++ [c], mode := Mode.insideQuoted } rest rfl
      refine ⟨st', ?_, h2, ?_, ?_⟩
      · have hb : quoteBody c (c :: s) ++ rest =
            c :: c :: (quoteBody c s ++ rest) := by simp [quoteBody]
        rw [hb]
        simp only [runAux, hstep1, hstep2]
        exact h1
      · rw [h3]; simp
      · rw [h4]; simp
    · have hstep1 : step d st c =
          StepOut.ok { bump st (isNewlineChar c) with
                       field := st.field ++ [c] } := by
        unfold step
        simp [bump_mode, bump_field, hmode, isQuote, hq, hc]
      obtain ⟨st', h1, h2, h3, h4⟩ := ih
        { bump st (isNewlineChar c) with field := st.field ++ [c] }
        rest (by simp [hmode])
      refine ⟨st', ?_, h2, ?_, ?_⟩
      · have hb : quoteBody q (c :: s) ++ rest =
            c :: (quoteBody q s ++ rest) := by simp [quoteBody, hc]
        rw [hb]
        simp only [runAux, hstep1]
        exact h1
      · rw [h3]; simp
      · rw [h4]; simp

/-- C8: for every string `s` and every dialect whose quote character is not a
newline, left-trim, or comment character, encoding `s` as a quoted field
(doubling every embedded quote and wrapping in the quote character) and
parsing the result yields exactly one row with exactly one field whose
content is `s`, unchanged and untrimmed — even when `s` contains delimiter,
quote and newline characters. -/
theorem c8_quoted_roundtrip (d : Dialect) (q : Char)
    (hq : d.quotechar = some q) (hnl : isNewlineChar q = false)
    (hil : isIgnoreLeft d q = false) (hcm : isComment d q = false)
    (s : List Char) :
    (parse d (encodeQuoted q s)).2 = none ∧
    (parse d (encodeQuoted q s)).1.map Row.fields = [[s]] := by
  have hstep0 : step d initSt q =
      StepOut.ok { bump initSt (isNewlineChar q) with
                   mode := Mode.insideQuoted,
                   lastQuoteLine := some (bump initSt (isNewlineChar q)).curLine,
                   lastQuoteChar := some (bump initSt (isNewlineChar q)).curChar,
                   lastQuoteIdx := some (bump initSt (isNewlineChar q)).idx } := by
    unfold step
    simp [bump_mode, initSt, hnl, hil, hcm, isQuote, hq]
  obtain ⟨st', h1, h2, h3, h4⟩ := runAux_quoteBody d q hq s
    { bump initSt (isNewlineChar q) with
      mode := Mode.insideQuoted,
      lastQuoteLine := some (bump initSt (isNewlineChar q)).curLine,
      lastQuoteChar := some (bump initSt (isNewlineChar q)).curChar,
      lastQuoteIdx := some (bump initSt (isNewlineChar q)).idx } [q] rfl
  have hstep2 : step d st' q =
      StepOut.ok { bump st' (isNewlineChar q) with
                   mode := Mode.insideQuotedQuote } := by
    unfold step
    simp [bump_mode, h2, isQuote, hq]
  have hrun : parse d (encodeQuoted q s) =
      runAux d { bump st' (isNewlineChar q) with
                 mode := Mode.insideQuotedQuote } [] := by
    show runAux d initSt (q :: (quoteBody q s ++ [q])) = _
    simp only [runAux, hstep0]
    rw [h1]
    simp only [runAux, hstep2]
  have hfin : runAux d { bump st' (isNewlineChar q) with
                         mode := Mode.insideQuotedQuote } [] =
      ([(yieldLine d { bump st' (isNewlineChar q) with
                       mode := Mode.insideQuotedQuote }).1], none) := by
    show finish d _ = _
    unfold finish
    simp
  rw [hrun, hfin]
  refine ⟨rfl, ?_⟩
  rw [List.map_singleton, yieldLine_fields_iqq d _ rfl]
  have hline : ({ bump st' (isNewlineChar q) with
      mode := Mode.insideQuotedQuote } : St).line = st'.line := by simp
  have hfield : ({ bump st' (isNewlineChar q) with
      mode := Mode.insideQuotedQuote } : St).field = st'.field := by simp
  rw [hline, hfield, h3, h4]
  simp [initSt]

/-- C8 (witness): the round trip applied, with the default dialect, to a
concrete field content containing a delimiter, a quote and a newline. -/
theorem c8_quoted_roundtrip_witness :
    (parse defaultDialect (encodeQuoted '"' "x,\"\ny".toList)).2 = none ∧
    (parse defaultDialect (encodeQuoted '"' "x,\"\ny".toList)).1.map
      Row.fields = [["x,\"\ny".toList]] :=
  c8_quoted_roundtrip defaultDialect '"' rfl (by decide) (by decide)
    (by decide) "x,\"\ny".toList

/-! ## Position tracking: `cur_line`, `cur_char`, `idx` as functions of the
consumed input -/

/-- The number of newline characters in a character list. -/
def cntNl (cs : List Char) : Nat := cs.countP (fun c => isNewlineChar c)

/-- The value of the `cur_char` column counter after consuming `cs` starting
from counter value `start`: incremented per character, reset to 0 by each
newline. -/
def colCont (start : Nat) (cs : List Char) : Nat :=
  cs.foldl (fun a c => if isNewlineChar c then 0 else a + 1) start

theorem cntNl_cons (c : Char) (cs : List Char) :
    cntNl (c :: cs) = cntNl cs + (if isNewlineChar c then 1 else 0) := by
  simp [cntNl, List.countP_cons]

theorem cntNl_append (xs ys : List Char) :
    cntNl (xs ++ ys) = cntNl xs + cntNl ys := by
  simp [cntNl, List.countP_append]

theorem colCont_cons (start : Nat) (c : Char) (cs : List Char) :
    colCont start (c :: cs) =
      colCont (if isNewlineChar c then 0 else start + 1) cs := rfl

theorem colCont_append (start : Nat) (xs ys : List Char) :
    colCont start (xs ++ ys) = colCont (colCont start xs) ys := by
  simp [colCont, List.foldl_append]

theorem bump_curLine (st : St) (b : Bool) :
    (bump st b).curLine = st.curLine + (if b then 1 else 0) := by
  unfold bump; cases b <;> simp

theorem bump_curChar (st : St) (b : Bool) :
    (bump st b).curChar = if b then 0 else st.curChar + 1 := by
  unfold bump; cases b <;> simp

@[simp] theorem nextField_idx (d : Dialect) (st : St) :
    (nextField d st).idx = st.idx := rfl

@[simp] theorem nextField_curLine (d : Dialect) (st : St) :
    (nextField d st).curLine = st.curLine := rfl

@[simp] theorem nextField_curChar (d : Dialect) (st : St) :
    (nextField d st).curChar = st.curChar := rfl

@[simp] theorem nextField_lastQuoteLine (d : Dialect) (st : St) :
    (nextField d st).lastQuoteLine = st.lastQuoteLine := rfl

@[simp] theorem nextField_lastQuoteChar (d : Dialect) (st : St) :
    (nextField d st).lastQuoteChar = st.lastQuoteChar := rfl

@[simp] theorem nextField_lastQuoteIdx (d : Dialect) (st : St) :
    (nextField d st).lastQuoteIdx = st.lastQuoteIdx := rfl

@[simp] theorem yieldLine_snd_idx (d : Dialect) (st : St) :
    ((yieldLine d st).2).idx = st.idx := by
  unfold yieldLine; split <;> simp [nextField]

@[simp] theorem yieldLine_snd_curLine (d : Dialect) (st : St) :
    ((yieldLine d st).2).curLine = st.curLine := by
  unfold yieldLine; split <;> simp [nextField]

@[simp] theorem yieldLine_snd_curChar (d : Dialect) (st : St) :
    ((yieldLine d st).2).curChar = st.curChar := by
  unfold yieldLine; split <;> simp [nextField]

/-- Counters of the state after a non-yielding step. -/
theorem step_ok_counters {d : Dialect} {st st' : St} {c : Char}
    (h : step d st c = StepOut.ok st') :
    st'.idx = st.idx + 1 ∧
    st'.curLine = st.curLine + (if isNewlineChar c then 1 else 0) ∧
    st'.curChar = (if isNewlineChar c then 0 else st.curChar + 1) := by
  unfold step at h
  cases hm : (bump st (isNewlineChar c)).mode <;> simp only [hm] at h <;>
    repeat' split at h
  all_goals simp only [StepOut.ok.injEq, reduceCtorEq] at h
  all_goals first
    | exact h.elim
    | (subst h
       refine ⟨?_, ?_, ?_⟩ <;>
         simp [nextField, bump_idx, bump_curLine, bump_curChar])

/-- Counters of the state after a yielding step. -/
theorem step_yield_counters {d : Dialect} {st st' : St} {c : Char} {r : Row}
    (h : step d st c = StepOut.yieldRow r st') :
    st'.idx = st.idx + 1 ∧
    st'.curLine = st.curLine + (if isNewlineChar c then 1 else 0) ∧
    st'.curChar = (if isNewlineChar c then 0 else st.curChar + 1) := by
  obtain ⟨-, h2⟩ := step_yield_eq h
  subst h2
  refine ⟨?_, ?_, ?_⟩ <;>
    simp [bump_idx, bump_curLine, bump_curChar]

/-- The counters of a loop state are determined by the consumed characters:
`idx` counts them, `cur_line` is 1 plus the newlines seen, `cur_char` is the
column fold. -/
theorem loopScan_counters (d : Dialect) :
    ∀ (cs : List Char) (st : St) (rs : List Row) (st' : St),
      loopScan d st cs = (rs, Sum.inl st') →
      st'.idx = st.idx + cs.length ∧
      st'.curLine = st.curLine + cntNl cs ∧
      st'.curChar = colCont st.curChar cs := by
  intro cs
  induction cs with
  | nil =>
    intro st rs st' h
    simp only [loopScan, Prod.mk.injEq, Sum.inl.injEq] at h
    rw [← h.2]
    simp [cntNl, colCont]
  | cons c cs ih =>
    intro st rs st' h
    simp only [loopScan] at h
    cases hstep : step d st c with
    | ok st1 =>
        rw [hstep] at h
        obtain ⟨h1, h2, h3⟩ := ih st1 rs st' h
        obtain ⟨g1, g2, g3⟩ := step_ok_counters hstep
        refine ⟨?_, ?_, ?_⟩
        · rw [h1, g1, List.length_cons]; omega
        · rw [h2, g2, cntNl_cons]; omega
        · rw [h3, g3, colCont_cons]
    | yieldRow r st1 =>
        rw [hstep] at h
        simp only [Prod.mk.injEq] at h
        obtain ⟨h1, h2, h3⟩ := ih st1 (loopScan d st1 cs).1 st'
          (by rw [← h.2])
        obtain ⟨g1, g2, g3⟩ := step_yield_counters hstep
        refine ⟨?_, ?_, ?_⟩
        · rw [h1, g1, List.length_cons]; omega
        · rw [h2, g2, cntNl_cons]; omega
        · rw [h3, g3, colCont_cons]
    | err e =>
        rw [hstep] at h
        simp at h

/-- A mid-loop error happens at a specific character: the loop ran cleanly
over a prefix, yielding exactly the rows reported, and the step at the next
character raised the error. -/
theorem loopScan_err (d : Dialect) :
    ∀ (cs : List Char) (st : St) (rs : List Row) (e : CSVError),
      loopScan d st cs = (rs, Sum.inr e) →
      ∃ (k : Nat) (ch : Char) (st0 : St),
        cs.get? k = some ch ∧
        loopScan d st (cs.take k) = (rs, Sum.inl st0) ∧
        step d st0 ch = StepOut.err e := by
  intro cs
  induction cs with
  | nil =>
    intro st rs e h
    simp [loopScan] at h
  | cons c cs ih =>
    intro st rs e h
    simp only [loopScan] at h
    cases hstep : step d st c with
    | ok st1 =>
        rw [hstep] at h
        obtain ⟨k, ch, st0, g1, g2, g3⟩ := ih st1 rs e h
        refine ⟨k + 1, ch, st0, by simpa using g1, ?_, g3⟩
        simp only [List.take_succ_cons, loopScan, hstep]
        exact g2
    | yieldRow r st1 =>
        rw [hstep] at h
        simp only [Prod.mk.injEq] at h
        obtain ⟨k, ch, st0, g1, g2, g3⟩ := ih st1 (loopScan d st1 cs).1 e
          (by rw [← h.2])
        refine ⟨k + 1, ch, st0, by simpa using g1, ?_, g3⟩
        simp only [List.take_succ_cons, loopScan, hstep, g2]
        rw [h.1]
    | err e' =>
        rw [hstep] at h
        simp only [Prod.mk.injEq, Sum.inr.injEq] at h
        refine ⟨0, c, st, rfl, ?_, ?_⟩
        · simp [loopScan, ← h.1]
        · rw [hstep, h.2]

/-! ## C5: where `UnallowedQuoteError` is raised -/

/-- The two (and only two) raise sites of `UnallowedQuoteError`, with the
recorded position being the just-bumped counters. -/
theorem step_err_cases {d : Dialect} {st : St} {c : Char} {e : CSVError}
    (h : step d st c = StepOut.err e) :
    (st.mode = Mode.inside ∧ isQuote d c = true ∧
      e = CSVError.unallowedQuote "Quote not allowed here"
            (bump st (isNewlineChar c)).curLine
            (bump st (isNewlineChar c)).curChar
            (bump st (isNewlineChar c)).idx) ∨
    (st.mode = Mode.insideQuotedQuote ∧ isQuote d c = false ∧
      isDelimiter d c = false ∧ isNewlineChar c = false ∧
      e = CSVError.unallowedQuote "Single quote inside quoted field"
            (bump st (isNewlineChar c)).curLine
            (bump st (isNewlineChar c)).curChar
            (bump st (isNewlineChar c)).idx) := by
  have hmode := bump_mode st (isNewlineChar c)
  unfold step at h
  cases hm : (bump st (isNewlineChar c)).mode <;> simp only [hm] at h <;>
    repeat' split at h
  all_goals simp only [StepOut.err.injEq, reduceCtorEq] at h
  all_goals first
    | exact h.elim
    | (refine Or.inl ⟨by rw [← hmode, hm], ‹isQuote d c = true›, h.symm⟩)
    | (refine Or.inr ⟨by rw [← hmode, hm], ?_, ?_, ?_, h.symm⟩
       · simpa using ‹¬ isQuote d c = true›
       · simpa using ‹¬ isDelimiter d c = true›
       · simpa using ‹¬ isNewlineChar c = true›)

/-- A quote character in `MODE_INSIDE` raises `UnallowedQuoteError`. -/
theorem step_err_of_inside_quote {d : Dialect} {st : St} {c : Char}
    (hm : st.mode = Mode.inside) (hq : isQuote d c = true) :
    step d st c = StepOut.err (CSVError.unallowedQuote "Quote not allowed here"
      (bump st (isNewlineChar c)).curLine
      (bump st (isNewlineChar c)).curChar
      (bump st (isNewlineChar c)).idx) := by
  unfold step
  simp [bump_mode, hm, hq]

/-- Any character other than a quote, delimiter or newline right after a
closing quote (`MODE_INSIDE_QUOTED_QUOTE`) raises `UnallowedQuoteError`. -/
theorem step_err_of_saw_quote {d : Dialect} {st : St} {c : Char}
    (hm : st.mode = Mode.insideQuotedQuote) (hq : isQuote d c = false)
    (hd : isDelimiter d c = false) (hn : isNewlineChar c = false) :
    step d st c = StepOut.err
      (CSVError.unallowedQuote "Single quote inside quoted field"
        (bump st (isNewlineChar c)).curLine
        (bump st (isNewlineChar c)).curChar
        (bump st (isNewlineChar c)).idx) := by
  unfold step
  simp [bump_mode, hm, hq, hd, hn]

/-- A mid-loop error propagates to `parse` with the rows yielded so far. -/
theorem parse_of_loopScan_err {d : Dialect} {input : List Char}
    {rs : List Row} {e : CSVError}
    (h : loopScan d initSt input = (rs, Sum.inr e)) :
    parse d input = (rs, some e) := by
  have hb := runAux_eq_loopScan d initSt input
  rw [h] at hb
  simpa [afterLoop] using hb

/-- Conversely, an `UnallowedQuoteError` reported by `parse` comes from a
mid-loop error with exactly the rows reported. -/
theorem loopScan_of_parse_unallowed {d : Dialect} {input : List Char}
    {msg : String} {l ch i : Nat}
    (h : (parse d input).2 = some (CSVError.unallowedQuote msg l ch i)) :
    loopScan d initSt input =
      ((parse d input).1, Sum.inr (CSVError.unallowedQuote msg l ch i)) := by
  cases hscan : loopScan d initSt input with
  | mk rs o =>
    cases o with
    | inl st =>
        exfalso
        have hb := runAux_eq_loopScan d initSt input
        rw [hscan] at hb
        unfold parse at h
        rw [hb] at h
        simp only [afterLoop] at h
        unfold finish at h
        split at h
        · simp at h
        · split at h <;> simp at h
    | inr e =>
        have hp := parse_of_loopScan_err hscan
        have h' : e = CSVError.unallowedQuote msg l ch i := by
          rw [hp] at h
          simpa using h
        rw [hp, h']

/-- The number of consumed characters in a clean prefix run equals the
prefix length. -/
theorem loopScan_take_idx {d : Dialect} {input : List Char} {k : Nat}
    {rs0 : List Row} {st0 : St} (hk : k < input.length)
    (h : loopScan d initSt (input.take k) = (rs0, Sum.inl st0)) :
    st0.idx = k ∧ st0.curLine = 1 + cntNl (input.take k) ∧
    st0.curChar = colCont 0 (input.take k) := by
  obtain ⟨h1, h2, h3⟩ := loopScan_counters d (input.take k) initSt rs0 st0 h
  have hlen : (input.take k).length = k := by
    rw [List.length_take]; omega
  refine ⟨?_, ?_, ?_⟩
  · rw [h1, hlen]; simp [initSt]
  · rw [h2]; simp [initSt]
  · rw [h3]; simp [initSt]

theorem take_succ_of_get {input : List Char} {k : Nat} {c0 : Char}
    (h : input.get? k = some c0) :
    input.take (k + 1) = input.take k ++ [c0] := by
  rw [List.get?_eq_getElem?] at h
  rw [List.take_succ, h]
  rfl

theorem cntNl_take_succ {input : List Char} {k : Nat} {c0 : Char}
    (h : input.get? k = some c0) :
    cntNl (input.take (k + 1)) =
      cntNl (input.take k) + (if isNewlineChar c0 then 1 else 0) := by
  rw [take_succ_of_get h, cntNl_append]
  simp [cntNl, List.countP_cons]

theorem colCont_take_succ {input : List Char} {k : Nat} {c0 : Char}
    (h : input.get? k = some c0) :
    colCont 0 (input.take (k + 1)) =
      if isNewlineChar c0 then 0 else colCont 0 (input.take k) + 1 := by
  rw [take_succ_of_get h, colCont_append]
  simp [colCont]

theorem loopScan_append_inl {d : Dialect} {st : St} {xs : List Char}
    {rs : List Row} {st' : St} (ys : List Char)
    (h : loopScan d st xs = (rs, Sum.inl st')) :
    loopScan d st (xs ++ ys) =
      (rs ++ (loopScan d st' ys).1, (loopScan d st' ys).2) := by
  rw [loopScan_append, h]

theorem get?_decomp {input : List Char} {k : Nat} {c0 : Char}
    (h : input.get? k = some c0) :
    k < input.length ∧ input = input.take k ++ c0 :: input.drop (k + 1) := by
  rw [List.get?_eq_getElem?] at h
  obtain ⟨hk, hel⟩ := List.getElem?_eq_some_iff.mp h
  refine ⟨hk, ?_⟩
  conv_lhs => rw [← List.take_append_drop k input]
  rw [List.drop_eq_getElem_cons hk, hel]

/-- C5 (counterexample): the claim says `UnallowedQuoteError` is raised
exactly when a *quote* character is misplaced.  But after a closing quote,
*any* character other than a quote, delimiter, or newline raises it: input
`"\"a\"x,c\n"` aborts at the character `'x'`, which is not a quote. -/
theorem c5_counterexample :
    parse defaultDialect "\"a\"x,c\n".toList =
      ([], some (CSVError.unallowedQuote "Single quote inside quoted field"
        1 4 4)) ∧
    "\"a\"x,c\n".toList.get? 3 = some 'x' ∧
    isQuote defaultDialect 'x' = false := by
  refine ⟨by decide, by decide, by decide⟩

/-- C5 (amended): `UnallowedQuoteError` is raised, carrying the position of
the offending character (its 1-based line `1 + cntNl` of the consumed prefix,
its column `colCont`, and its 1-based absolute index), exactly when a quote
character appears inside an unquoted field (`MODE_INSIDE`), or any character
other than a quote, delimiter or newline appears immediately after a closing
quote inside a quoted field (`MODE_INSIDE_QUOTED_FIELD_SAW_QUOTE`); the error
is fatal: the rows produced are exactly those yielded before the offending
character.  Input `"a\"b,c\n"` raises it at the embedded quote (line 1,
column 2, index 2). -/
theorem c5_unallowed_quote :
    parse defaultDialect "a\"b,c\n".toList =
      ([], some (CSVError.unallowedQuote "Quote not allowed here" 1 2 2)) ∧
    (∀ (d : Dialect) (input : List Char) (msg : String) (l ch i : Nat),
      (parse d input).2 = some (CSVError.unallowedQuote msg l ch i) →
      ∃ (k : Nat) (c0 : Char) (st0 : St),
        i = k + 1 ∧
        input.get? k = some c0 ∧
        l = 1 + cntNl (input.take (k + 1)) ∧
        ch = colCont 0 (input.take (k + 1)) ∧
        loopScan d initSt (input.take k) =
          ((parse d input).1, Sum.inl st0) ∧
        ((st0.mode = Mode.inside ∧ isQuote d c0 = true ∧
          msg = "Quote not allowed here") ∨
         (st0.mode = Mode.insideQuotedQuote ∧ isQuote d c0 = false ∧
          isDelimiter d c0 = false ∧ isNewlineChar c0 = false ∧
          msg = "Single quote inside quoted field"))) ∧
    (∀ (d : Dialect) (input : List Char) (k : Nat) (c0 : Char)
       (rs0 : List Row) (st0 : St),
      input.get? k = some c0 →
      loopScan d initSt (input.take k) = (rs0, Sum.inl st0) →
      ((st0.mode = Mode.inside ∧ isQuote d c0 = true) ∨
       (st0.mode = Mode.insideQuotedQuote ∧ isQuote d c0 = false ∧
        isDelimiter d c0 = false ∧ isNewlineChar c0 = false)) →
      ∃ msg : String, parse d input =
        (rs0, some (CSVError.unallowedQuote msg
          (1 + cntNl (input.take (k + 1)))
          (colCont 0 (input.take (k + 1))) (k + 1)))) := by
  refine ⟨by decide, ?_, ?_⟩
  · intro d input msg l ch i h
    have hscan := loopScan_of_parse_unallowed h
    obtain ⟨k, c0, st0, g1, g2, g3⟩ :=
      loopScan_err d input initSt (parse d input).1 _ hscan
    obtain ⟨hk, -⟩ := get?_decomp g1
    obtain ⟨hidx, hline, hchar⟩ := loopScan_take_idx hk g2
    have hbl : (bump st0 (isNewlineChar c0)).curLine =
        1 + cntNl (input.take (k + 1)) := by
      rw [bump_curLine, hline, cntNl_take_succ g1]
      cases isNewlineChar c0 <;> simp <;> omega
    have hbc : (bump st0 (isNewlineChar c0)).curChar =
        colCont 0 (input.take (k + 1)) := by
      rw [bump_curChar, hchar, colCont_take_succ g1]
    have hbi : (bump st0 (isNewlineChar c0)).idx = k + 1 := by
      rw [bump_idx, hidx]
    rcases step_err_cases g3 with ⟨hm, hq, he⟩ | ⟨hm, hq, hd2, hn, he⟩
    · simp only [CSVError.unallowedQuote.injEq] at he
      obtain ⟨hmsg, hl, hch, hi⟩ := he
      refine ⟨k, c0, st0, ?_, g1, ?_, ?_, g2, Or.inl ⟨hm, hq, hmsg⟩⟩
      · rw [hi, hbi]
      · rw [hl, hbl]
      · rw [hch, hbc]
    · simp only [CSVError.unallowedQuote.injEq] at he
      obtain ⟨hmsg, hl, hch, hi⟩ := he
      refine ⟨k, c0, st0, ?_, g1, ?_, ?_, g2,
        Or.inr ⟨hm, hq, hd2, hn, hmsg⟩⟩
      · rw [hi, hbi]
      · rw [hl, hbl]
      · rw [hch, hbc]
  · intro d input k c0 rs0 st0 hget hpre hcond
    obtain ⟨hk, hsplit⟩ := get?_decomp hget
    obtain ⟨hidx, hline, hchar⟩ := loopScan_take_idx hk hpre
    have hbl : (bump st0 (isNewlineChar c0)).curLine =
        1 + cntNl (input.take (k + 1)) := by
      rw [bump_curLine, hline, cntNl_take_succ hget]
      cases isNewlineChar c0 <;> simp <;> omega
    have hbc : (bump st0 (isNewlineChar c0)).curChar =
        colCont 0 (input.take (k + 1)) := by
      rw [bump_curChar, hchar, colCont_take_succ hget]
    have hbi : (bump st0 (isNewlineChar c0)).idx = k + 1 := by
      rw [bump_idx, hidx]
    have hstep : ∃ msg : String, step d st0 c0 =
        StepOut.err (CSVError.unallowedQuote msg
          (bump st0 (isNewlineChar c0)).curLine
          (bump st0 (isNewlineChar c0)).curChar
          (bump st0 (isNewlineChar c0)).idx) := by
      rcases hcond with ⟨hm, hq⟩ | ⟨hm, hq, hd2, hn⟩
      · exact ⟨_, step_err_of_inside_quote hm hq⟩
      · exact ⟨_, step_err_of_saw_quote hm hq hd2 hn⟩
    obtain ⟨msg, hstep⟩ := hstep
    refine ⟨msg, ?_⟩
    have hLS : loopScan d st0 (c0 :: input.drop (k + 1)) =
        ([], Sum.inr (CSVError.unallowedQuote msg
          (1 + cntNl (input.take (k + 1)))
          (colCont 0 (input.take (k + 1))) (k + 1))) := by
      simp only [loopScan, hstep]
      rw [hbl, hbc, hbi]
    have hscan : loopScan d initSt input =
        (rs0, Sum.inr (CSVError.unallowedQuote msg
          (1 + cntNl (input.take (k + 1)))
          (colCont 0 (input.take (k + 1))) (k + 1))) := by
      conv_lhs => rw [hsplit]
      rw [loopScan_append_inl (c0 :: input.drop (k + 1)) hpre, hLS]
      simp
    exact parse_of_loopScan_err hscan

/-- C5 (witness): the amended characterization applied at the concrete
input `"a\"b,c\n"` and the concrete `MODE_INSIDE` state reached after
consuming `"a"`. -/
theorem c5_unallowed_quote_witness :
    (∃ msg : String, parse defaultDialect "a\"b,c\n".toList =
      ([], some (CSVError.unallowedQuote msg
        (1 + cntNl ("a\"b,c\n".toList.take 2))
        (colCont 0 ("a\"b,c\n".toList.take 2)) 2))) ∧
    parse defaultDialect "a\"b,c\n".toList =
      ([], some (CSVError.unallowedQuote "Quote not allowed here" 1 2 2)) :=
  ⟨c5_unallowed_quote.2.2 defaultDialect "a\"b,c\n".toList 1 '"' []
      { mode := Mode.inside, field := ['a'], line := [], curLine := 1,
        curChar := 1, idx := 1, lastQuoteLine := none, lastQuoteChar := none,
        lastQuoteIdx := none }
      (by decide) (by decide) (Or.inl ⟨rfl, by decide⟩),
   c5_unallowed_quote.1⟩

/-! ## C4: `UnclosedQuoteError` is positioned at the opening quote -/

theorem take_append_le {α : Type _} {l1 l2 : List α} {n : Nat}
    (h : n ≤ l1.length) : (l1 ++ l2).take n = l1.take n := by
  rw [List.take_append_eq_append_take]
  have h0 : n - l1.length = 0 := by omega
  simp [h0]

theorem isQuote_quotechar {d : Dialect} {c : Char}
    (h : isQuote d c = true) : d.quotechar = some c := by
  unfold isQuote at h
  cases hq : d.quotechar with
  | none => rw [hq] at h; exact absurd h (by simp)
  | some q =>
      rw [hq] at h
      have : c = q := by simpa using h
      rw [this]

/-- While the machine is inside a quoted field (`MODE_INSIDE_QUOTED` or
`MODE_INSIDE_QUOTED_FIELD_SAW_QUOTE`), the `last_quote_*` variables hold the
1-based line, column and absolute index of the quote character that opened
the field: that character is the dialect's quote character, it sits at index
`k` of the consumed input, and the loop state just before it was
`START_OF_LINE` or `OUTSIDE_FIELD` (i.e. the quote *opened* a field). -/
def QuotePos (d : Dialect) (consumed : List Char) (st : St) : Prop :=
  ∃ (k : Nat) (qc : Char),
    d.quotechar = some qc ∧
    consumed.get? k = some qc ∧
    st.lastQuoteLine = some (1 + cntNl (consumed.take (k + 1))) ∧
    st.lastQuoteChar = some (colCont 0 (consumed.take (k + 1))) ∧
    st.lastQuoteIdx = some (k + 1) ∧
    ∃ (rs0 : List Row) (st0 : St),
      loopScan d initSt (consumed.take k) = (rs0, Sum.inl st0) ∧
      (st0.mode = Mode.first ∨ st0.mode = Mode.outside)

/-- How a non-yielding step can end up inside a quoted field: either it was
already inside one and the `last_quote_*` variables are untouched, or the
step consumed the opening quote from `START_OF_LINE`/`OUTSIDE_FIELD` and
recorded the just-bumped position. -/
theorem step_quote_track {d : Dialect} {st st1 : St} {c : Char}
    (h : step d st c = StepOut.ok st1)
    (hmode : st1.mode = Mode.insideQuoted ∨
             st1.mode = Mode.insideQuotedQuote) :
    ((st.mode = Mode.insideQuoted ∨ st.mode = Mode.insideQuotedQuote) ∧
      st1.lastQuoteLine = st.lastQuoteLine ∧
      st1.lastQuoteChar = st.lastQuoteChar ∧
      st1.lastQuoteIdx = st.lastQuoteIdx) ∨
    ((st.mode = Mode.first ∨ st.mode = Mode.outside) ∧
      isQuote d c = true ∧ isNewlineChar c = false ∧
      st1.lastQuoteLine = some st.curLine ∧
      st1.lastQuoteChar = some (st.curChar + 1) ∧
      st1.lastQuoteIdx = some (st.idx + 1)) := by
  have hbm := bump_mode st (isNewlineChar c)
  unfold step at h
  cases hm : (bump st (isNewlineChar c)).mode <;> simp only [hm] at h <;>
    repeat' split at h
  all_goals simp only [StepOut.ok.injEq, reduceCtorEq] at h
  all_goals try exact h.elim
  all_goals subst h
  all_goals first
    | (refine Or.inl ⟨?_, ?_, ?_, ?_⟩
       · rw [← hbm, hm]; simp
       · simp
       · simp
       · simp)
    | (have hnl : isNewlineChar c = false := by
         simpa using ‹¬ isNewlineChar c = true›
       refine Or.inr ⟨?_, ‹isQuote d c = true›, hnl, ?_, ?_, ?_⟩
       · rw [← hbm, hm]; simp
       · simp [bump_curLine, hnl]
       · simp [bump_curChar, hnl]
       · simp [bump_idx])
    | (exfalso
       rcases hmode with hh | hh <;> simp_all [nextField])

/-- The quote-position invariant is preserved by the whole loop. -/
theorem loopScan_quoteInv (d : Dialect) :
    ∀ (cs pre : List Char) (rs : List Row) (st : St),
      loopScan d initSt pre = (rs, Sum.inl st) →
      ((st.mode = Mode.insideQuoted ∨ st.mode = Mode.insideQuotedQuote) →
        QuotePos d pre st) →
      ∀ (rs2 : List Row) (st2 : St),
        loopScan d st cs = (rs2, Sum.inl st2) →
        (st2.mode = Mode.insideQuoted ∨ st2.mode = Mode.insideQuotedQuote) →
        QuotePos d (pre ++ cs) st2 := by
  intro cs
  induction cs with
  | nil =>
    intro pre rs st hpre hqi rs2 st2 h2 hmode
    simp only [loopScan, Prod.mk.injEq, Sum.inl.injEq] at h2
    obtain ⟨-, h2⟩ := h2
    subst h2
    rw [List.append_nil]
    exact hqi hmode
  | cons c cs ih =>
    intro pre rs st hpre hqi rs2 st2 h2 hmode
    rw [show pre ++ c :: cs = (pre ++ [c]) ++ cs by simp]
    simp only [loopScan] at h2
    cases hstep : step d st c with
    | ok st1 =>
        rw [hstep] at h2
        have hpre' : loopScan d initSt (pre ++ [c]) = (rs, Sum.inl st1) := by
          rw [loopScan_append_inl [c] hpre]
          simp [loopScan, hstep]
        refine ih (pre ++ [c]) rs st1 hpre' ?_ rs2 st2 h2 hmode
        intro hm1
        obtain ⟨hidx, hline, hchar⟩ :=
          loopScan_counters d pre initSt rs st hpre
        rcases step_quote_track hstep hm1 with
          ⟨hcar, e1, e2, e3⟩ | ⟨hfo, hq, hnl, e1, e2, e3⟩
        · obtain ⟨k, qc, q1, q2, q3, q4, q5, rs0, st0, q6, q7⟩ := hqi hcar
          have hklt : k < pre.length := by
            by_contra hc
            push_neg at hc
            rw [List.get?_eq_getElem?, List.getElem?_eq_none hc] at q2
            exact Option.noConfusion q2
          refine ⟨k, qc, q1, ?_, ?_, ?_, ?_, rs0, st0, ?_, q7⟩
          · rw [List.get?_eq_getElem?] at q2 ⊢
            rw [List.getElem?_append_left hklt]
            exact q2
          · rw [e1, q3, take_append_le hklt]
          · rw [e2, q4, take_append_le hklt]
          · rw [e3, q5]
          · rw [take_append_le (le_of_lt hklt)]
            exact q6
        · refine ⟨pre.length, c, isQuote_quotechar hq, ?_, ?_, ?_, ?_,
            rs, st, ?_, hfo⟩
          · rw [List.get?_eq_getElem?]
            exact List.getElem?_concat_length pre c
          · rw [e1, hline]
            have ht : (pre ++ [c]).take (pre.length + 1) = pre ++ [c] :=
              List.take_of_length_le (by simp)
            rw [ht, cntNl_append]
            simp [cntNl, hnl, initSt]
          · rw [e2, hchar]
            have ht : (pre ++ [c]).take (pre.length + 1) = pre ++ [c] :=
              List.take_of_length_le (by simp)
            rw [ht, colCont_append]
            simp [colCont, hnl, initSt]
          · rw [e3, hidx]
            simp [initSt]
          · rw [List.take_left]
            exact hpre
    | yieldRow r st1 =>
        rw [hstep] at h2
        simp only [Prod.mk.injEq] at h2
        have hpre' : loopScan d initSt (pre ++ [c]) =
            (rs ++ [r], Sum.inl st1) := by
          rw [loopScan_append_inl [c] hpre]
          simp [loopScan, hstep]
        refine ih (pre ++ [c]) (rs ++ [r]) st1 hpre' ?_
          (loopScan d st1 cs).1 st2 ?_ hmode
        · intro hm1
          exfalso
          obtain ⟨-, hst1⟩ := step_yield_eq hstep
          rw [hst1, yieldLine_reset_mode] at hm1
          rcases hm1 with hh | hh <;> exact Mode.noConfusion hh
        · rw [← h2.2]
    | err e =>
        rw [hstep] at h2
        simp at h2

/-- C4: if the loop reaches end of stream in `MODE_INSIDE_QUOTED`, the parse
raises `UnclosedQuoteError` whose line, column and absolute index are those
of the quote character that opened the unterminated field (a quote character
of the input, consumed from `START_OF_LINE`/`OUTSIDE_FIELD`), not the
end-of-stream position. -/
theorem c4_unclosed_quote :
    ∀ (d : Dialect) (input : List Char) (rows : List Row) (st : St),
      loopScan d initSt input = (rows, Sum.inl st) →
      st.mode = Mode.insideQuoted →
      ∃ (k : Nat) (qc : Char),
        d.quotechar = some qc ∧
        input.get? k = some qc ∧
        k + 1 ≤ input.length ∧
        parse d input = (rows, some (CSVError.unclosedQuote "Unexpected end"
          (some (1 + cntNl (input.take (k + 1))))
          (some (colCont 0 (input.take (k + 1))))
          (some (k + 1)))) ∧
        (∃ (rs0 : List Row) (st0 : St),
          loopScan d initSt (input.take k) = (rs0, Sum.inl st0) ∧
          (st0.mode = Mode.first ∨ st0.mode = Mode.outside)) := by
  intro d input rows st hscan hmode
  have hqp : QuotePos d input st := by
    have := loopScan_quoteInv d input [] [] initSt rfl ?_ rows st hscan
      (Or.inl hmode)
    · simpa using this
    · intro hm
      rcases hm with hh | hh <;> exact absurd hh (by simp [initSt])
  obtain ⟨k, qc, q1, q2, q3, q4, q5, rs0, st0, q6, q7⟩ := hqp
  have hklt : k < input.length := by
    by_contra hc
    push_neg at hc
    rw [List.get?_eq_getElem?, List.getElem?_eq_none hc] at q2
    exact Option.noConfusion q2
  refine ⟨k, qc, q1, q2, by omega, ?_, rs0, st0, q6, q7⟩
  have hb := runAux_eq_loopScan d initSt input
  rw [hscan] at hb
  unfold parse
  rw [hb]
  simp only [afterLoop]
  unfold finish
  rw [if_pos hmode, q3, q4, q5]
  simp

/-- C4 (witness): the end-of-stream unclosed-quote policy applied at the
concrete input `"a,\"b\n"`, whose loop halts in `MODE_INSIDE_QUOTED`. -/
theorem c4_unclosed_quote_witness :
    ∃ (k : Nat) (qc : Char),
      defaultDialect.quotechar = some qc ∧
      "a,\"b\n".toList.get? k = some qc ∧
      k + 1 ≤ "a,\"b\n".toList.length ∧
      parse defaultDialect "a,\"b\n".toList =
        ([], some (CSVError.unclosedQuote "Unexpected end"
          (some (1 + cntNl ("a,\"b\n".toList.take (k + 1))))
          (some (colCont 0 ("a,\"b\n".toList.take (k + 1))))
          (some (k + 1)))) ∧
      (∃ (rs0 : List Row) (st0 : St),
        loopScan defaultDialect initSt ("a,\"b\n".toList.take k) =
          (rs0, Sum.inl st0) ∧
        (st0.mode = Mode.first ∨ st0.mode = Mode.outside)) :=
  c4_unclosed_quote defaultDialect "a,\"b\n".toList []
    { mode := Mode.insideQuoted, field := ['b', '\n'], line := [['a']],
      curLine := 2, curChar := 0, idx := 5,
      lastQuoteLine := some 1, lastQuoteChar := some 3,
      lastQuoteIdx := some 3 }
    (by decide) rfl

/-! ## C9: comment lines -/

/-- Shift a state's absolute counters: the line counter by `dl` and the
index counter by `di` (the column counter is unaffected by whole earlier
lines). -/
def shiftSt (dl di : Nat) (st : St) : St :=
  { st with
    curLine := st.curLine + dl
    idx := st.idx + di
    lastQuoteLine := st.lastQuoteLine.map (· + dl)
    lastQuoteIdx := st.lastQuoteIdx.map (· + di) }

/-- Shift a row's line number. -/
def shiftRow (dl : Nat) (r : Row) : Row := { r with lineno := r.lineno + dl }

/-- Shift an error's line and index positions. -/
def shiftErr (dl di : Nat) : CSVError → CSVError
  | CSVError.unclosedQuote m l c i =>
      CSVError.unclosedQuote m (l.map (· + dl)) c (i.map (· + di))
  | CSVError.unallowedQuote m l c i =>
      CSVError.unallowedQuote m (l + dl) c (i + di)

/-- Shift a loop-step outcome. -/
def shiftOut (dl di : Nat) : StepOut → StepOut
  | StepOut.ok st => StepOut.ok (shiftSt dl di st)
  | StepOut.yieldRow r st => StepOut.yieldRow (shiftRow dl r) (shiftSt dl di st)
  | StepOut.err e => StepOut.err (shiftErr dl di e)

@[simp] theorem shiftSt_mode (dl di : Nat) (st : St) :
    (shiftSt dl di st).mode = st.mode := rfl

@[simp] theorem shiftSt_field (dl di : Nat) (st : St) :
    (shiftSt dl di st).field = st.field := rfl

@[simp] theorem shiftSt_line (dl di : Nat) (st : St) :
    (shiftSt dl di st).line = st.line := rfl

@[simp] theorem shiftSt_curChar (dl di : Nat) (st : St) :
    (shiftSt dl di st).curChar = st.curChar := rfl

theorem bump_shift (dl di : Nat) (st : St) (b : Bool) :
    bump (shiftSt dl di st) b = shiftSt dl di (bump st b) := by
  cases b <;> simp [bump, shiftSt] <;> omega

theorem nextField_shift (d : Dialect) (dl di : Nat) (st : St) :
    nextField d (shiftSt dl di st) = shiftSt dl di (nextField d st) := by
  by_cases hiq : st.mode = Mode.insideQuotedQuote <;>
    simp [nextField, shiftSt, hiq]

theorem yieldLine_shift (d : Dialect) (dl di : Nat) (st : St) :
    yieldLine d (shiftSt dl di st) =
      (shiftRow dl (yieldLine d st).1, shiftSt dl di (yieldLine d st).2) := by
  by_cases hcond : st.mode = Mode.outside ∧ delimiterIsWhitespace d
  · simp [yieldLine, shiftSt, shiftRow, hcond]
  · simp only [yieldLine, shiftSt_mode, if_neg hcond, nextField_shift]
    simp [shiftSt, shiftRow, nextField]

theorem step_shift (d : Dialect) (dl di : Nat) (st : St) (c : Char) :
    step d (shiftSt dl di st) c = shiftOut dl di (step d st c) := by
  unfold step
  simp only [bump_shift, shiftSt_mode, bump_mode]
  cases hm : st.mode <;>
    cases hnl : isNewlineChar c <;>
      cases hil : isIgnoreLeft d c <;>
        cases hcm : isComment d c <;>
          cases hq : isQuote d c <;>
            cases hdl : isDelimiter d c <;>
              simp only [reduceIte, nextField_shift, yieldLine_shift] <;>
              simp [shiftOut, shiftErr, shiftRow, shiftSt, bump] <;>
              try omega

theorem finish_shift (d : Dialect) (dl di : Nat) (st : St) :
    finish d (shiftSt dl di st) =
      ((finish d st).1.map (shiftRow dl),
       (finish d st).2.map (shiftErr dl di)) := by
  unfold finish
  by_cases h1 : st.mode = Mode.insideQuoted
  · simp [h1, shiftErr, shiftSt]
  · by_cases h2 : st.mode = Mode.insideQuotedQuote ∨ st.mode = Mode.outside ∨
        st.mode = Mode.inside
    · simp [h1, h2, yieldLine_shift]
    · simp [h1, h2]

/-- Running the machine from a shifted state shifts every produced row's
line number and every error's line/index, and nothing else. -/
theorem runAux_shift (d : Dialect) (dl di : Nat) :
    ∀ (cs : List Char) (st : St),
      runAux d (shiftSt dl di st) cs =
        ((runAux d st cs).1.map (shiftRow dl),
         (runAux d st cs).2.map (shiftErr dl di)) := by
  intro cs
  induction cs with
  | nil => intro st; simpa [runAux] using finish_shift d dl di st
  | cons c cs ih =>
    intro st
    simp only [runAux, step_shift]
    cases hstep : step d st c with
    | ok st1 => simp [shiftOut, ih st1]
    | yieldRow r st1 => simp [shiftOut, ih st1]
    | err e => simp [shiftOut]

/-- Consuming non-newline characters in `MODE_COMMENT` only advances the
index and column counters. -/
theorem runAux_comment (d : Dialect) :
    ∀ (body : List Char) (st : St) (rest : List Char),
      st.mode = Mode.comment →
      (∀ c ∈ body, isNewlineChar c = false) →
      runAux d st (body ++ rest) =
        runAux d
          { st with
            idx := st.idx + body.length
            curChar := st.curChar + body.length } rest := by
  intro body
  induction body with
  | nil =>
    intro st rest hmode hbody
    simp
  | cons c body ih =>
    intro st rest hmode hbody
    have hnl : isNewlineChar c = false := hbody c (by simp)
    have hstep : step d st c = StepOut.ok (bump st false) := by
      unfold step
      rw [hnl]
      simp [bump_mode, hmode]
    simp only [List.cons_append, runAux, hstep, List.append_eq]
    rw [ih (bump st false) rest (by simp [hmode])
      (fun x hx => hbody x (by simp [hx]))]
    congr 1
    simp [bump]
    omega

/-- C9 (counterexample): the same data row carries *different* line numbers
with and without a preceding comment line, so the presence of the comment
line does affect the line numbers attached to subsequent rows (the comment
line is counted as a line). -/
theorem c9_counterexample :
    (parse defaultDialect "#x\na,b\n".toList).1 =
      [{ fields := [['a'], ['b']], lineno := 3 }] ∧
    (parse defaultDialect "a,b\n".toList).1 =
      [{ fields := [['a'], ['b']], lineno := 2 }] ∧
    (3 : Nat) ≠ 2 := by
  refine ⟨by decide, by decide, by decide⟩

/-- C9 (amended): a line whose first character is the dialect's comment
character (and not a newline or left-trim character) produces no row: all
its characters up to and including the terminating newline are discarded,
and the comment line is counted as exactly one line, so the subsequent rows
are exactly those of the parse of the remaining input with every line number
shifted up by one (and any error position shifted by one line and by the
comment line's length). -/
theorem c9_comment_line :
    ∀ (d : Dialect) (cm : Char) (body rest : List Char) (nl : Char),
      isComment d cm = true → isNewlineChar cm = false →
      isIgnoreLeft d cm = false →
      (∀ c ∈ body, isNewlineChar c = false) →
      isNewlineChar nl = true →
      parse d (cm :: (body ++ nl :: rest)) =
        ((parse d rest).1.map (shiftRow 1),
         (parse d rest).2.map (shiftErr 1 (body.length + 2))) := by
  intro d cm body rest nl hcm hcmnl hcmil hbody hnl
  have hstep0 : step d initSt cm =
      StepOut.ok { bump initSt false with mode := Mode.comment } := by
    unfold step
    rw [hcmnl]
    simp [bump_mode, initSt, hcmnl, hcmil, hcm]
  unfold parse
  simp only [runAux, hstep0]
  rw [runAux_comment d body _ (nl :: rest) rfl hbody]
  have hstep1 : step d
      { bump initSt false with
        mode := Mode.comment
        idx := ({ bump initSt false with mode := Mode.comment } : St).idx +
          body.length
        curChar :=
          ({ bump initSt false with mode := Mode.comment } : St).curChar +
          body.length } nl =
      StepOut.ok (shiftSt 1 (body.length + 2) initSt) := by
    unfold step
    rw [hnl]
    simp only [bump_mode]
    simp [bump, shiftSt, initSt]
    try omega
  simp only [runAux, hstep1]
  exact runAux_shift d 1 (body.length + 2) rest initSt

/-- C9 (witness): the amended comment-line property applied at a concrete
comment line `"#x\n"` before the input `"a,b\n"`. -/
theorem c9_comment_line_witness :
    parse defaultDialect ('#' :: (['x'] ++ '\n' :: "a,b\n".toList)) =
      ((parse defaultDialect "a,b\n".toList).1.map (shiftRow 1),
       (parse defaultDialect "a,b\n".toList).2.map
         (shiftErr 1 (['x'].length + 2))) :=
  c9_comment_line defaultDialect '#' ['x'] "a,b\n".toList '\n'
    (by decide) (by decide) (by decide) (by decide) (by decide)

/-! ## C2: quote-free, comment-free inputs against split-and-trim -/

/-- Split a character list at every character satisfying `p` (each
occurrence separates; `n` separators yield `n + 1` pieces). -/
def splitP (p : Char → Bool) : List Char → List (List Char)
  | [] => [[]]
  | c :: cs =>
    if p c then [] :: splitP p cs
    else
      match splitP p cs with
      | [] => [[c]]
      | h :: t => (c :: h) :: t

theorem splitP_ne_nil (p : Char → Bool) : ∀ cs, splitP p cs ≠ [] := by
  intro cs
  cases cs with
  | nil => simp [splitP]
  | cons c cs =>
    simp only [splitP]
    split
    · simp
    · split <;> simp

theorem splitP_no_sep (p : Char → Bool) :
    ∀ cs, (∀ c ∈ cs, p c = false) → splitP p cs = [cs] := by
  intro cs
  induction cs with
  | nil => intro _; rfl
  | cons c cs ih =>
    intro h
    have hc : p c = false := h c (by simp)
    simp only [splitP, hc, Bool.false_eq_true, if_false]
    rw [ih (fun x hx => h x (by simp [hx]))]

theorem splitP_append_cons (p : Char → Bool) :
    ∀ (xs : List Char) (c : Char) (ys : List Char),
      (∀ x ∈ xs, p x = false) → p c = true →
      splitP p (xs ++ c :: ys) = xs :: splitP p ys := by
  intro xs
  induction xs with
  | nil =>
    intro c ys _ hc
    simp [splitP, hc]
  | cons x xs ih =>
    intro c ys hxs hc
    have hx : p x = false := hxs x (by simp)
    simp only [List.cons_append, splitP, hx, Bool.false_eq_true, if_false,
      List.append_eq]
    rw [ih c ys (fun a ha => hxs a (by simp [ha])) hc]

/-- Left-trim then right-trim one piece, per the dialect (the spec's
reference treatment of a single split piece). -/
def trimPiece (d : Dialect) (p : List Char) : List Char :=
  rstripChars d.trimright (p.dropWhile (fun c => isIgnoreLeft d c))

/-- Reference per-line result, following the spec's words: split the line on
the dialect's delimiter characters and apply the dialect's left-trim and
right-trim to each piece. -/
def refLineFields (d : Dialect) (line : List Char) : List (List Char) :=
  (splitP (fun c => isDelimiter d c) line).map (trimPiece d)

/-- Reference result for a whole input: split into lines on the newline
characters, keep the lines containing at least one non-left-trim character,
and apply `refLineFields` to each. -/
def refRows (d : Dialect) (input : List Char) : List (List (List Char)) :=
  ((splitP (fun c => isNewlineChar c) input).filter
    (fun l => l.any (fun c => !(isIgnoreLeft d c)))).map (refLineFields d)

/-- The per-line field automaton: what `Reader.__iter__` does to
`(mode, field, line)` on the characters of one line, for quote-free,
comment-free characters whose delimiters are not left-trim characters. -/
def scanLine (d : Dialect) :
    Mode → List Char → List (List Char) → List Char →
      Mode × List Char × List (List Char)
  | m, f, L, [] => (m, f, L)
  | m, f, L, c :: cs =>
    if isDelimiter d c then
      scanLine d Mode.outside [] (L ++ [rstripChars d.trimright f]) cs
    else if (m = Mode.first ∨ m = Mode.outside) ∧ isIgnoreLeft d c then
      scanLine d m f L cs
    else
      scanLine d Mode.inside (f ++ [c]) L cs

/-- One step, skipping a left-trim character in `START_OF_LINE`/`OUTSIDE`. -/
theorem step_skip {d : Dialect} {st : St} {c : Char}
    (hmode : st.mode = Mode.first ∨ st.mode = Mode.outside)
    (hnl : isNewlineChar c = false) (hil : isIgnoreLeft d c = true)
    (hcm : isComment d c = false) :
    step d st c = StepOut.ok (bump st false) := by
  unfold step
  rw [hnl]
  rcases hmode with hm | hm <;> simp [bump_mode, hm, hnl, hil, hcm]

/-- One step consuming a delimiter in any of the three unquoted modes. -/
theorem step_delim {d : Dialect} {st : St} {c : Char}
    (hmode : st.mode = Mode.first ∨ st.mode = Mode.outside ∨
      st.mode = Mode.inside)
    (hnl : isNewlineChar c = false) (hq : isQuote d c = false)
    (hcm : isComment d c = false) (hil : isIgnoreLeft d c = false)
    (hdl : isDelimiter d c = true) :
    step d st c = StepOut.ok (nextField d (bump st false)) := by
  unfold step
  rw [hnl]
  rcases hmode with hm | hm | hm <;>
    simp [bump_mode, hm, hnl, hq, hcm, hil, hdl]

/-- One step consuming an ordinary character: start/extend the field. -/
theorem step_other {d : Dialect} {st : St} {c : Char}
    (hmode : st.mode = Mode.first ∨ st.mode = Mode.outside ∨
      st.mode = Mode.inside)
    (hnl : isNewlineChar c = false) (hq : isQuote d c = false)
    (hcm : isComment d c = false) (hdl : isDelimiter d c = false)
    (hil : st.mode = Mode.inside ∨ isIgnoreLeft d c = false) :
    step d st c = StepOut.ok
      { bump st false with
        mode := Mode.inside
        field := st.field ++ [c] } := by
  unfold step
  rw [hnl]
  rcases hmode with hm | hm | hm
  · rcases hil with hil | hil
    · exact absurd (hm ▸ hil) (by simp)
    · simp [bump_mode, hm, hnl, hq, hcm, hdl, hil]
  · rcases hil with hil | hil
    · exact absurd (hm ▸ hil) (by simp)
    · simp [bump_mode, hm, hnl, hq, hcm, hdl, hil]
  · simp [bump_mode, hm, hnl, hq, hcm, hdl]

/-- Running the machine over the characters of one line (no newlines, no
quotes, no comments, delimiters not left-trimmed) transforms
`(mode, field, line)` exactly as `scanLine` does, and touches nothing that
matters to field content. -/
theorem runAux_over_line (d : Dialect) :
    ∀ (cs : List Char) (st : St) (rest : List Char),
      (st.mode = Mode.first ∨ st.mode = Mode.outside ∨
        st.mode = Mode.inside) →
      (∀ c ∈ cs, isNewlineChar c = false ∧ isQuote d c = false ∧
        isComment d c = false ∧
        (isDelimiter d c = true → isIgnoreLeft d c = false)) →
      ∃ st' : St,
        runAux d st (cs ++ rest) = runAux d st' rest ∧
        st'.mode = (scanLine d st.mode st.field st.line cs).1 ∧
        st'.field = (scanLine d st.mode st.field st.line cs).2.1 ∧
        st'.line = (scanLine d st.mode st.field st.line cs).2.2 := by
  intro cs
  induction cs with
  | nil =>
    intro st rest hmode hgood
    exact ⟨st, by simp, rfl, rfl, rfl⟩
  | cons c cs ih =>
    intro st rest hmode hgood
    obtain ⟨hnl, hq, hcm, h1⟩ := hgood c (by simp)
    have hgood' : ∀ x ∈ cs, isNewlineChar x = false ∧ isQuote d x = false ∧
        isComment d x = false ∧
        (isDelimiter d x = true → isIgnoreLeft d x = false) :=
      fun x hx => hgood x (by simp [hx])
    by_cases hdl : isDelimiter d c = true
    · have hil : isIgnoreLeft d c = false := h1 hdl
      have hstep := step_delim hmode hnl hq hcm hil hdl
      obtain ⟨st', e1, e2, e3, e4⟩ := ih (nextField d (bump st false)) rest
        (Or.inr (Or.inl rfl)) hgood'
      have hnf : nextField d (bump st false) =
          { bump st false with
            mode := Mode.outside
            field := []
            line := st.line ++ [rstripChars d.trimright st.field] } := by
        have hne : st.mode ≠ Mode.insideQuotedQuote := by
          rcases hmode with hm | hm | hm <;> simp [hm]
        simp [nextField, hne]
      rw [hnf] at e1 e2 e3 e4
      refine ⟨st', ?_, ?_, ?_, ?_⟩
      · rw [List.cons_append]
        simp only [runAux, hstep, hnf]
        exact e1
      · simpa [scanLine, hdl] using e2
      · simpa [scanLine, hdl] using e3
      · simpa [scanLine, hdl] using e4
    · have hdlf : isDelimiter d c = false := by simpa using hdl
      rcases hmode with hm | hm | hm
      · by_cases hil : isIgnoreLeft d c = true
        · have hstep := step_skip (Or.inl hm) hnl hil hcm
          obtain ⟨st', e1, e2, e3, e4⟩ := ih (bump st false) rest
            (Or.inl (by simp [hm])) hgood'
          refine ⟨st', ?_, ?_, ?_, ?_⟩
          · rw [List.cons_append]
            simp only [runAux, hstep]
            exact e1
          · simpa [scanLine, hdlf, hil, hm] using e2
          · simpa [scanLine, hdlf, hil, hm] using e3
          · simpa [scanLine, hdlf, hil, hm] using e4
        · have hilf : isIgnoreLeft d c = false := by simpa using hil
          have hstep := step_other (Or.inl hm) hnl hq hcm hdlf (Or.inr hilf)
          obtain ⟨st', e1, e2, e3, e4⟩ := ih
            { bump st false with
              mode := Mode.inside
              field := st.field ++ [c] } rest (Or.inr (Or.inr rfl)) hgood'
          refine ⟨st', ?_, ?_, ?_, ?_⟩
          · rw [List.cons_append]
            simp only [runAux, hstep]
            exact e1
          · simpa [scanLine, hdlf, hilf, hm] using e2
          · simpa [scanLine, hdlf, hilf, hm] using e3
          · simpa [scanLine, hdlf, hilf, hm] using e4
      · by_cases hil : isIgnoreLeft d c = true
        · have hstep := step_skip (Or.inr hm) hnl hil hcm
          obtain ⟨st', e1, e2, e3, e4⟩ := ih (bump st false) rest
            (Or.inr (Or.inl (by simp [hm]))) hgood'
          refine ⟨st', ?_, ?_, ?_, ?_⟩
          · rw [List.cons_append]
            simp only [runAux, hstep]
            exact e1
          · simpa [scanLine, hdlf, hil, hm] using e2
          · simpa [scanLine, hdlf, hil, hm] using e3
          · simpa [scanLine, hdlf, hil, hm] using e4
        · have hilf : isIgnoreLeft d c = false := by simpa using hil
          have hstep := step_other (Or.inr (Or.inl hm)) hnl hq hcm hdlf
            (Or.inr hilf)
          obtain ⟨st', e1, e2, e3, e4⟩ := ih
            { bump st false with
              mode := Mode.inside
              field := st.field ++ [c] } rest (Or.inr (Or.inr rfl)) hgood'
          refine ⟨st', ?_, ?_, ?_, ?_⟩
          · rw [List.cons_append]
            simp only [runAux, hstep]
            exact e1
          · simpa [scanLine, hdlf, hilf, hm] using e2
          · simpa [scanLine, hdlf, hilf, hm] using e3
          · simpa [scanLine, hdlf, hilf, hm] using e4
      · have hstep := step_other (Or.inr (Or.inr hm)) hnl hq hcm hdlf
          (Or.inl hm)
        obtain ⟨st', e1, e2, e3, e4⟩ := ih
          { bump st false with
            mode := Mode.inside
            field := st.field ++ [c] } rest (Or.inr (Or.inr rfl)) hgood'
        refine ⟨st', ?_, ?_, ?_, ?_⟩
        · rw [List.cons_append]
          simp only [runAux, hstep]
          exact e1
        · simpa [scanLine, hdlf, hm] using e2
        · simpa [scanLine, hdlf, hm] using e3
        · simpa [scanLine, hdlf, hm] using e4

/-- Close the pending field of a line-automaton state: the row that
`yield_line` would produce (in the non-whitespace-collapsing case). -/
def closeAll (d : Dialect) (t : Mode × List Char × List (List Char)) :
    List (List Char) :=
  t.2.2 ++ [rstripChars d.trimright t.2.1]

/-- The fields assembled by the line automaton are exactly split-then-trim:
from `MODE_INSIDE` the first piece merges with the carried buffer, and from
`MODE_FIRST`/`MODE_OUTSIDE` every piece is left- and right-trimmed. -/
theorem scanLine_fields (d : Dialect) :
    ∀ cs : List Char,
      (∀ c ∈ cs, isDelimiter d c = true → isIgnoreLeft d c = false) →
      ((∀ (f : List Char) (L : List (List Char)),
        closeAll d (scanLine d Mode.inside f L cs) =
          L ++ [rstripChars d.trimright
            (f ++ (splitP (fun c => isDelimiter d c) cs).headI)] ++
          ((splitP (fun c => isDelimiter d c) cs).tail).map (trimPiece d)) ∧
       (∀ (m : Mode) (L : List (List Char)),
        (m = Mode.first ∨ m = Mode.outside) →
        closeAll d (scanLine d m [] L cs) =
          L ++ (splitP (fun c => isDelimiter d c) cs).map (trimPiece d))) := by
  intro cs
  induction cs with
  | nil =>
    intro _
    constructor
    · intro f L
      simp [scanLine, closeAll, splitP]
    · intro m L _
      simp [scanLine, closeAll, splitP, trimPiece]
  | cons c cs ih =>
    intro hgood
    have h1 : isDelimiter d c = true → isIgnoreLeft d c = false :=
      hgood c (by simp)
    have hgood' : ∀ x ∈ cs, isDelimiter d x = true → isIgnoreLeft d x = false :=
      fun x hx => hgood x (by simp [hx])
    obtain ⟨ihP, ihQ⟩ := ih hgood'
    obtain ⟨h, t, hsplit⟩ : ∃ h t,
        splitP (fun c => isDelimiter d c) cs = h :: t := by
      cases hs : splitP (fun c => isDelimiter d c) cs with
      | nil => exact absurd hs (splitP_ne_nil _ cs)
      | cons h t => exact ⟨h, t, rfl⟩
    constructor
    · intro f L
      by_cases hdl : isDelimiter d c = true
      · have hq := ihQ Mode.outside (L ++ [rstripChars d.trimright f])
          (Or.inr rfl)
        simp only [scanLine, hdl, if_true, reduceIte]
        rw [hq]
        simp [splitP, hdl, trimPiece]
      · have hdlf : isDelimiter d c = false := by simpa using hdl
        have hp := ihP (f ++ [c]) L
        simp only [scanLine, hdlf, Bool.false_eq_true, if_false, reduceIte]
        have hcond : ¬((Mode.inside = Mode.first ∨ Mode.inside = Mode.outside) ∧
            isIgnoreLeft d c = true) := by simp
        rw [if_neg hcond]
        rw [hp, hsplit]
        simp [splitP, hdlf, hsplit]
    · intro m L hm
      by_cases hdl : isDelimiter d c = true
      · have hq := ihQ Mode.outside (L ++ [rstripChars d.trimright []])
          (Or.inr rfl)
        simp only [scanLine, hdl, if_true, reduceIte]
        rw [hq]
        simp [splitP, hdl, trimPiece]
      · have hdlf : isDelimiter d c = false := by simpa using hdl
        by_cases hil : isIgnoreLeft d c = true
        · have hq := ihQ m L hm
          simp only [scanLine, hdlf, Bool.false_eq_true, if_false, reduceIte]
          have hcond : (m = Mode.first ∨ m = Mode.outside) ∧
              isIgnoreLeft d c = true := ⟨hm, hil⟩
          rw [if_pos hcond]
          rw [hq, hsplit]
          simp only [splitP, hdlf, Bool.false_eq_true, if_false, hsplit,
            List.map_cons]
          have htrim : trimPiece d (c :: h) = trimPiece d h := by
            simp [trimPiece, List.dropWhile, hil]
          rw [htrim]
        · have hilf : isIgnoreLeft d c = false := by simpa using hil
          have hp := ihP [c] L
          simp only [scanLine, hdlf, Bool.false_eq_true, if_false, reduceIte]
          have hcond : ¬((m = Mode.first ∨ m = Mode.outside) ∧
              isIgnoreLeft d c = true) := by simp [hilf]
          rw [if_neg hcond]
          simp only [List.nil_append]
          rw [hp, hsplit]
          simp only [splitP, hdlf, Bool.false_eq_true, if_false, hsplit,
            List.map_cons, List.headI, List.tail]
          have htrim : trimPiece d (c :: h) =
              rstripChars d.trimright (c :: h) := by
            simp [trimPiece, List.dropWhile, hilf]
          rw [htrim]
          simp

/-- The line automaton never leaves the three unquoted modes. -/
theorem scanLine_mode_mem (d : Dialect) :
    ∀ (cs : List Char) (m : Mode) (f : List Char) (L : List (List Char)),
      (m = Mode.first ∨ m = Mode.outside ∨ m = Mode.inside) →
      ((scanLine d m f L cs).1 = Mode.first ∨
       (scanLine d m f L cs).1 = Mode.outside ∨
       (scanLine d m f L cs).1 = Mode.inside) := by
  intro cs
  induction cs with
  | nil => intro m f L hm; simpa [scanLine] using hm
  | cons c cs ih =>
    intro m f L hm
    simp only [scanLine]
    split
    · exact ih _ _ _ (Or.inr (Or.inl rfl))
    · split
      · exact ih _ _ _ hm
      · exact ih _ _ _ (Or.inr (Or.inr rfl))

/-- Once the automaton has left `MODE_FIRST` it never returns to it. -/
theorem scanLine_ne_first (d : Dialect) :
    ∀ (cs : List Char) (m : Mode) (f : List Char) (L : List (List Char)),
      m ≠ Mode.first → (scanLine d m f L cs).1 ≠ Mode.first := by
  intro cs
  induction cs with
  | nil => intro m f L hm; simpa [scanLine] using hm
  | cons c cs ih =>
    intro m f L hm
    simp only [scanLine]
    split
    · exact ih _ _ _ (by simp)
    · split
      · exact ih _ _ _ hm
      · exact ih _ _ _ (by simp)

/-- If the automaton is still in `MODE_FIRST` after a line started in
`MODE_FIRST`, every character of the line was a skipped left-trim
character. -/
theorem scanLine_first_chars (d : Dialect) :
    ∀ (cs : List Char) (f : List Char) (L : List (List Char)),
      (scanLine d Mode.first f L cs).1 = Mode.first →
      ∀ c ∈ cs, isIgnoreLeft d c = true ∧ isDelimiter d c = false := by
  intro cs
  induction cs with
  | nil => intro f L _ c hc; exact absurd hc (by simp)
  | cons c cs ih =>
    intro f L hmode x hx
    simp only [scanLine] at hmode
    by_cases hdl : isDelimiter d c = true
    · rw [if_pos hdl] at hmode
      exact absurd hmode (scanLine_ne_first d cs _ _ _ (by simp))
    · have hdlf : isDelimiter d c = false := by simpa using hdl
      rw [if_neg (by simp [hdlf])] at hmode
      by_cases hil : isIgnoreLeft d c = true
      · rw [if_pos ⟨by simp, hil⟩] at hmode
        rcases List.mem_cons.mp hx with hx | hx
        · subst hx; exact ⟨hil, hdlf⟩
        · exact ih f L hmode x hx
      · rw [if_neg (by simp [hil])] at hmode
        exact absurd hmode (scanLine_ne_first d cs _ _ _ (by simp))

/-- A run of skipped left-trim characters leaves the automaton unchanged. -/
theorem scanLine_all_trim (d : Dialect) :
    ∀ (cs : List Char) (m : Mode) (f : List Char) (L : List (List Char)),
      (m = Mode.first ∨ m = Mode.outside) →
      (∀ c ∈ cs, isIgnoreLeft d c = true ∧ isDelimiter d c = false) →
      scanLine d m f L cs = (m, f, L) := by
  intro cs
  induction cs with
  | nil => intro m f L _ _; rfl
  | cons c cs ih =>
    intro m f L hm hall
    obtain ⟨hil, hdlf⟩ := hall c (by simp)
    simp only [scanLine]
    rw [if_neg (by simp [hdlf]), if_pos ⟨hm, hil⟩]
    exact ih m f L hm (fun x hx => hall x (by simp [hx]))

/-- The head of a non-empty `dropWhile` result fails the predicate. -/
theorem dropWhile_head_false {α : Type _} (p : α → Bool) :
    ∀ (l : List α) (c : α) (rest : List α),
      l.dropWhile p = c :: rest → p c = false := by
  intro l
  induction l with
  | nil => intro c rest h; exact absurd h (by simp)
  | cons x l ih =>
    intro c rest h
    by_cases hx : p x = true
    · rw [List.dropWhile_cons_of_pos hx] at h
      exact ih c rest h
    · have hxf : p x = false := by simpa using hx
      rw [List.dropWhile_cons_of_neg (by simp [hxf])] at h
      cases h
      exact hxf

/-- `yield_line` without the whitespace-collapsing drop closes the pending
field onto the row. -/
theorem yieldLine_fields_close (d : Dialect) (st : St)
    (hmode : st.mode = Mode.outside ∨ st.mode = Mode.inside)
    (hws : delimiterIsWhitespace d = false) :
    (yieldLine d st).1.fields =
      st.line ++ [rstripChars d.trimright st.field] := by
  unfold yieldLine
  rcases hmode with hm | hm <;> simp [hm, hws, nextField]

@[simp] theorem yieldLine_reset_field (d : Dialect) (st : St) :
    ((yieldLine d st).2).field = [] := rfl

@[simp] theorem yieldLine_reset_line (d : Dialect) (st : St) :
    ((yieldLine d st).2).line = [] := rfl

/-- A newline in `MODE_FIRST` does not yield a row. -/
theorem step_newline_first {d : Dialect} {st : St} {c : Char}
    (hnl : isNewlineChar c = true) (hm : st.mode = Mode.first) :
    step d st c = StepOut.ok (bump st true) := by
  unfold step
  rw [hnl]
  simp [bump_mode, hm]

/-- A newline in `MODE_OUTSIDE`/`MODE_INSIDE` yields the current row. -/
theorem step_newline_yield {d : Dialect} {st : St} {c : Char}
    (hnl : isNewlineChar c = true) (hq : isQuote d c = false)
    (hm : st.mode = Mode.outside ∨ st.mode = Mode.inside) :
    step d st c = StepOut.yieldRow (yieldLine d (bump st true)).1
      (yieldLine d (bump st true)).2 := by
  unfold step
  rw [hnl]
  rcases hm with hm | hm <;> simp [bump_mode, hm, hq]

/-- The main induction for C2: from a fresh row-start state, a quote-free,
comment-free input parses without error into exactly the reference rows. -/
theorem parse_ref_aux (d : Dialect) (hws : delimiterIsWhitespace d = false) :
    ∀ (n : Nat) (input : List Char) (st : St),
      input.length ≤ n →
      st.mode = Mode.first → st.field = [] → st.line = [] →
      (∀ c ∈ input, isQuote d c = false ∧ isComment d c = false ∧
        (isDelimiter d c = true → isIgnoreLeft d c = false)) →
      (runAux d st input).2 = none ∧
      (runAux d st input).1.map Row.fields = refRows d input := by
  intro n
  induction n with
  | zero =>
    intro input st hlen hm hf hL hgood
    have hnil : input = [] := List.eq_nil_of_length_eq_zero (Nat.le_zero.mp hlen)
    subst hnil
    refine ⟨?_, ?_⟩ <;> simp [runAux, finish, hm, refRows, splitP]
  | succ n ih =>
    intro input st hlen hm hf hL hgood
    have hsplit := List.takeWhile_append_dropWhile
      (p := fun c => !(isNewlineChar c)) (l := input)
    set l1 := input.takeWhile (fun c => !(isNewlineChar c)) with hl1def
    set r1 := input.dropWhile (fun c => !(isNewlineChar c)) with hr1def
    have hl1nl : ∀ c ∈ l1, isNewlineChar c = false := by
      intro c hc
      have h := List.mem_takeWhile_imp hc
      simpa using h
    have hmeml1 : ∀ c ∈ l1, c ∈ input := by
      intro c hc
      rw [← hsplit]
      exact List.mem_append_left _ hc
    have hgoodl1 : ∀ c ∈ l1, isNewlineChar c = false ∧ isQuote d c = false ∧
        isComment d c = false ∧
        (isDelimiter d c = true → isIgnoreLeft d c = false) := by
      intro c hc
      obtain ⟨a, b, e⟩ := hgood c (hmeml1 c hc)
      exact ⟨hl1nl c hc, a, b, e⟩
    have hH1l1 : ∀ c ∈ l1, isDelimiter d c = true → isIgnoreLeft d c = false :=
      fun c hc => (hgood c (hmeml1 c hc)).2.2
    obtain ⟨st', e1, e2, e3, e4⟩ := runAux_over_line d l1 st r1
      (Or.inl hm) hgoodl1
    rw [hm, hf, hL] at e2 e3 e4
    have hTmem := scanLine_mode_mem d l1 Mode.first [] [] (Or.inl rfl)
    have hrw : runAux d st input = runAux d st' r1 := by
      rw [← hsplit]
      exact e1
    have hclose : st'.line ++ [rstripChars d.trimright st'.field] =
        refLineFields d l1 := by
      rw [e3, e4]
      have hQ := (scanLine_fields d l1 hH1l1).2 Mode.first [] (Or.inl rfl)
      unfold closeAll at hQ
      simpa [refLineFields] using hQ
    cases hr : r1 with
    | nil =>
      have hinp : input = l1 := by rw [← hsplit, hr, List.append_nil]
      rw [hrw, hr]
      rcases hTmem with hT | hT | hT
      · have hm' : st'.mode = Mode.first := by rw [e2, hT]
        have hchars := scanLine_first_chars d l1 [] [] hT
        have hfin : runAux d st' [] = ([], none) := by
          show finish d st' = _
          simp [finish, hm']
        rw [hfin]
        refine ⟨rfl, ?_⟩
        rw [hinp]
        unfold refRows
        rw [splitP_no_sep _ l1 (fun c hc => by simp [hl1nl c hc])]
        have hany : l1.any (fun c => !(isIgnoreLeft d c)) = false := by
          rw [List.any_eq_false]
          intro c hc
          simp [(hchars c hc).1]
        simp [hany]
      · have hm' : st'.mode = Mode.outside := by rw [e2, hT]
        have hfin : runAux d st' [] = ([(yieldLine d st').1], none) := by
          show finish d st' = _
          unfold finish
          rw [if_neg (by simp [hm']), if_pos (by simp [hm'])]
        rw [hfin]
        refine ⟨rfl, ?_⟩
        have hfields := yieldLine_fields_close d st' (Or.inl hm') hws
        rw [hinp]
        unfold refRows
        rw [splitP_no_sep _ l1 (fun c hc => by simp [hl1nl c hc])]
        have hany : l1.any (fun c => !(isIgnoreLeft d c)) = true := by
          by_contra hcon
          have hfalse : l1.any (fun c => !(isIgnoreLeft d c)) = false := by
            simpa using hcon
          have hall : ∀ c ∈ l1, isIgnoreLeft d c = true := by
            intro c hc
            have := List.any_eq_false.mp hfalse c hc
            simpa using this
          have hdelim : ∀ c ∈ l1, isDelimiter d c = false := by
            intro c hc
            by_contra hd
            have hd' : isDelimiter d c = true := by simpa using hd
            have hx := hH1l1 c hc hd'
            rw [hall c hc] at hx
            exact Bool.noConfusion hx
          have hfix := scanLine_all_trim d l1 Mode.first [] [] (Or.inl rfl)
            (fun c hc => ⟨hall c hc, hdelim c hc⟩)
          rw [hfix] at hT
          exact absurd hT (by simp)
        simp only [List.filter_cons, hany, if_true, List.filter_nil,
          List.map_cons, List.map_nil]
        simp [hfields, hclose]
      · have hm' : st'.mode = Mode.inside := by rw [e2, hT]
        have hfin : runAux d st' [] = ([(yieldLine d st').1], none) := by
          show finish d st' = _
          unfold finish
          rw [if_neg (by simp [hm']), if_pos (by simp [hm'])]
        rw [hfin]
        refine ⟨rfl, ?_⟩
        have hfields := yieldLine_fields_close d st' (Or.inr hm') hws
        rw [hinp]
        unfold refRows
        rw [splitP_no_sep _ l1 (fun c hc => by simp [hl1nl c hc])]
        have hany : l1.any (fun c => !(isIgnoreLeft d c)) = true := by
          by_contra hcon
          have hfalse : l1.any (fun c => !(isIgnoreLeft d c)) = false := by
            simpa using hcon
          have hall : ∀ c ∈ l1, isIgnoreLeft d c = true := by
            intro c hc
            have := List.any_eq_false.mp hfalse c hc
            simpa using this
          have hdelim : ∀ c ∈ l1, isDelimiter d c = false := by
            intro c hc
            by_contra hd
            have hd' : isDelimiter d c = true := by simpa using hd
            have hx := hH1l1 c hc hd'
            rw [hall c hc] at hx
            exact Bool.noConfusion hx
          have hfix := scanLine_all_trim d l1 Mode.first [] [] (Or.inl rfl)
            (fun c hc => ⟨hall c hc, hdelim c hc⟩)
          rw [hfix] at hT
          exact absurd hT (by simp)
        simp only [List.filter_cons, hany, if_true, List.filter_nil,
          List.map_cons, List.map_nil]
        simp [hfields, hclose]
    | cons c0 rest =>
      have hc0 : isNewlineChar c0 = true := by
        have hdw := dropWhile_head_false (fun c => !(isNewlineChar c))
          input c0 rest (by rw [← hr1def, hr])
        simpa using hdw
      have hc0mem : c0 ∈ input := by
        rw [← hsplit, hr]
        exact List.mem_append_right _ (by simp)
      have hq0 : isQuote d c0 = false := (hgood c0 hc0mem).1
      have hrest_mem : ∀ c ∈ rest, c ∈ input := by
        intro c hc
        rw [← hsplit, hr]
        exact List.mem_append_right _ (by simp [hc])
      have hgoodrest : ∀ c ∈ rest, isQuote d c = false ∧
          isComment d c = false ∧
          (isDelimiter d c = true → isIgnoreLeft d c = false) :=
        fun c hc => hgood c (hrest_mem c hc)
      have hlen_rest : rest.length ≤ n := by
        have h2 : input.length = l1.length + rest.length + 1 := by
          rw [← hsplit, hr]
          simp [List.length_append]
          try omega
        omega
      have hrefsplit : splitP (fun c => isNewlineChar c) input =
          l1 :: splitP (fun c => isNewlineChar c) rest := by
        rw [← hsplit, hr]
        exact splitP_append_cons _ l1 c0 rest
          (fun x hx => hl1nl x hx) hc0
      rcases hTmem with hT | hT | hT
      · have hm' : st'.mode = Mode.first := by rw [e2, hT]
        have hchars := scanLine_first_chars d l1 [] [] hT
        have hTfull := scanLine_all_trim d l1 Mode.first [] []
          (Or.inl rfl) hchars
        have hf' : st'.field = [] := by rw [e3, hTfull]
        have hL' : st'.line = [] := by rw [e4, hTfull]
        have hstep := @step_newline_first d st' c0 hc0 hm'
        obtain ⟨E1, E2⟩ := ih rest (bump st' true) hlen_rest
          (by simp [hm']) (by simp [hf']) (by simp [hL']) hgoodrest
        rw [hrw, hr]
        simp only [runAux, hstep]
        refine ⟨E1, ?_⟩
        rw [E2]
        unfold refRows
        rw [hrefsplit]
        have hany : l1.any (fun c => !(isIgnoreLeft d c)) = false := by
          rw [List.any_eq_false]
          intro c hc
          simp [(hchars c hc).1]
        simp [hany]
      · have hm' : st'.mode = Mode.outside := by rw [e2, hT]
        have hbmode : (bump st' true).mode = Mode.outside := by simp [hm']
        have hstep := step_newline_yield hc0 hq0 (Or.inl hm')
        obtain ⟨E1, E2⟩ := ih rest (yieldLine d (bump st' true)).2 hlen_rest
          (yieldLine_reset_mode d _) (yieldLine_reset_field d _)
          (yieldLine_reset_line d _) hgoodrest
        rw [hrw, hr]
        simp only [runAux, hstep]
        refine ⟨by simpa using E1, ?_⟩
        have hfields : (yieldLine d (bump st' true)).1.fields =
            refLineFields d l1 := by
          rw [yieldLine_fields_close d _ (Or.inl hbmode) hws]
          simpa using hclose
        have hany : l1.any (fun c => !(isIgnoreLeft d c)) = true := by
          by_contra hcon
          have hfalse : l1.any (fun c => !(isIgnoreLeft d c)) = false := by
            simpa using hcon
          have hall : ∀ c ∈ l1, isIgnoreLeft d c = true := by
            intro c hc
            have := List.any_eq_false.mp hfalse c hc
            simpa using this
          have hdelim : ∀ c ∈ l1, isDelimiter d c = false := by
            intro c hc
            by_contra hd
            have hd' : isDelimiter d c = true := by simpa using hd
            have hx := hH1l1 c hc hd'
            rw [hall c hc] at hx
            exact Bool.noConfusion hx
          have hfix := scanLine_all_trim d l1 Mode.first [] [] (Or.inl rfl)
            (fun c hc => ⟨hall c hc, hdelim c hc⟩)
          rw [hfix] at hT
          exact absurd hT (by simp)
        show ((yieldLine d (bump st' true)).1 ::
          (runAux d (yieldLine d (bump st' true)).2 rest).1).map Row.fields =
          refRows d input
        unfold refRows
        rw [hrefsplit]
        simp only [List.filter_cons, hany, if_true, List.map_cons]
        rw [hfields, E2]
        rfl
      · have hm' : st'.mode = Mode.inside := by rw [e2, hT]
        have hbmode : (bump st' true).mode = Mode.inside := by simp [hm']
        have hstep := step_newline_yield hc0 hq0 (Or.inr hm')
        obtain ⟨E1, E2⟩ := ih rest (yieldLine d (bump st' true)).2 hlen_rest
          (yieldLine_reset_mode d _) (yieldLine_reset_field d _)
          (yieldLine_reset_line d _) hgoodrest
        rw [hrw, hr]
        simp only [runAux, hstep]
        refine ⟨by simpa using E1, ?_⟩
        have hfields : (yieldLine d (bump st' true)).1.fields =
            refLineFields d l1 := by
          rw [yieldLine_fields_close d _ (Or.inr hbmode) hws]
          simpa using hclose
        have hany : l1.any (fun c => !(isIgnoreLeft d c)) = true := by
          by_contra hcon
          have hfalse : l1.any (fun c => !(isIgnoreLeft d c)) = false := by
            simpa using hcon
          have hall : ∀ c ∈ l1, isIgnoreLeft d c = true := by
            intro c hc
            have := List.any_eq_false.mp hfalse c hc
            simpa using this
          have hdelim : ∀ c ∈ l1, isDelimiter d c = false := by
            intro c hc
            by_contra hd
            have hd' : isDelimiter d c = true := by simpa using hd
            have hx := hH1l1 c hc hd'
            rw [hall c hc] at hx
            exact Bool.noConfusion hx
          have hfix := scanLine_all_trim d l1 Mode.first [] [] (Or.inl rfl)
            (fun c hc => ⟨hall c hc, hdelim c hc⟩)
          rw [hfix] at hT
          exact absurd hT (by simp)
        show ((yieldLine d (bump st' true)).1 ::
          (runAux d (yieldLine d (bump st' true)).2 rest).1).map Row.fields =
          refRows d input
        unfold refRows
        rw [hrefsplit]
        simp only [List.filter_cons, hany, if_true, List.map_cons]
        rw [hfields, E2]
        rfl

/-- C2 (counterexample): the claim fails as stated.  Under the whitespace
dialect the reader collapses delimiter runs, so for input `"a  b\n"` it
produces the fields `["a","b"]` for the line `"a  b"`, while the reference
split-and-trim of that line yields `["a","","b"]`; and under the default
dialect a blank line produces no row at all while the reference assigns it
the one-empty-field sequence `[""]`. -/
theorem c2_counterexample :
    (∀ c ∈ "a  b\n".toList, isQuote whitespaceDialect c = false) ∧
    (∀ c ∈ "a  b\n".toList, isComment whitespaceDialect c = false) ∧
    (parse whitespaceDialect "a  b\n".toList).1.map Row.fields =
      [[['a'], ['b']]] ∧
    refLineFields whitespaceDialect "a  b".toList = [['a'], [], ['b']] ∧
    ([['a'], ['b']] : List (List Char)) ≠ [['a'], [], ['b']] ∧
    (parse defaultDialect "\n".toList).1 = [] ∧
    splitP (fun c => isNewlineChar c) "\n".toList = [[], []] ∧
    refLineFields defaultDialect [] = [[]] := by
  refine ⟨by decide, by decide, by decide, by decide, by decide,
    by decide, by decide, by decide⟩

/-- C2 (amended): for every dialect whose delimiter characters are not
left-trim characters and whose delimiter string is not a substring of its
right-trim string (so no whitespace collapsing), and every input containing
no quote characters and no comment characters, the reader succeeds, its rows
correspond one-to-one to the input's lines that contain at least one
non-left-trim character, and each such row's fields equal the reference
result obtained by splitting the line on the dialect's delimiter characters
and applying the dialect's left-trim and right-trim to each piece; lines
consisting solely of left-trim characters (including empty lines) produce no
row. -/
theorem c2_split_trim :
    ∀ (d : Dialect) (input : List Char),
      (∀ c ∈ input, isQuote d c = false) →
      (∀ c ∈ input, isComment d c = false) →
      (∀ c ∈ input, isDelimiter d c = true → isIgnoreLeft d c = false) →
      delimiterIsWhitespace d = false →
      (parse d input).2 = none ∧
      (parse d input).1.map Row.fields = refRows d input := by
  intro d input hq hcm h1 hws
  exact parse_ref_aux d hws input.length input initSt le_rfl rfl rfl rfl
    (fun c hc => ⟨hq c hc, hcm c hc, h1 c hc⟩)

/-- C2 (witness): the amended equivalence applied to a concrete input with
trimming, a blank line, and a trailing delimiter, under the default
dialect. -/
theorem c2_split_trim_witness :
    (parse defaultDialect "a , b\n\nc,\n".toList).2 = none ∧
    (parse defaultDialect "a , b\n\nc,\n".toList).1.map Row.fields =
      refRows defaultDialect "a , b\n\nc,\n".toList :=
  c2_split_trim defaultDialect "a , b\n\nc,\n".toList
    (by decide) (by decide) (by decide) (by decide)

end Conferatur
